import Mathlib

/-!
Service queue (`sq.c`): a shallow embedding and its verification.

The C program keeps a queue of integer "buzzers" in a linked structure of
`NODE`s: the active ring (linked through `next`, with `prev` back links and
the head's `prev` doubling as the tail pointer), a free stack of reusable
nodes (linked through `next`), and a direct-access table `buzzer` from id to
node.

Embedding
* A pointer is `Option Nat`: `none` is `NULL`, `some a` is the address of the
  `a`-th node ever allocated.  The heap is the list of all nodes allocated so
  far; `malloc(sizeof(NODE))` appends one node, so a fresh address is always
  distinct from every address in use (nodes are only released by `sq_free`).
* The table `q->buzzer` is the list of its entries; its length is the number
  of entries `malloc` reserved for it.
* C `int` values (`n`, `total`, `id`, the `buzzer` argument) are `Int`.  The
  multiplication `q->total * 2` of `grow_buzzers` is checked against the
  range of a 32-bit `int`: outside it the C program has no defined result
  and the model faults with `overflow`.  The steps `(q->n)++` and
  `(q->n)--` are not checked: on a queue that satisfies the invariants
  `0 <= n <= total`, the decrement is made with `n >= 1` and the increment
  with `n < total` or right after a doubling that fitted, so both stay in
  range whenever `total` does.
* Every operation returns `Except Fault _`: dereferencing `NULL` or an
  address that was never allocated, indexing the table outside its
  allocation, signed overflow and `abort()` are faults, not results.
-/

namespace ServiceQueue

/-- A pointer to a `NODE`: `none` is `NULL`. -/
abbrev Ptr := Option Nat

/-- The ways an operation of the C program can fail to produce a result. -/
inductive Fault where
  | nullDeref
  | badPointer
  | outOfBounds
  | overflow
  | abort
  deriving DecidableEq, Repr

/-- `struct node` (sq.c lines 5-9). -/
structure NODE where
  id : Int
  next : Ptr
  prev : Ptr
  deriving DecidableEq, Repr

/-- `struct service_queue` (sq.c lines 12-18) together with the heap of
nodes its pointers refer to. -/
structure SQ where
  n : Int
  total : Int
  start : Ptr
  bucket : Ptr
  buzzer : List Ptr
  heap : List NODE
  deriving DecidableEq, Repr

/-! ## Memory accesses -/

/-- The `id` field of the node at address `a` (0 when `a` is not allocated). -/
def idOf (h : List NODE) (a : Nat) : Int :=
  match h[a]? with
  | some nd => nd.id
  | none => 0

/-- The `next` field of the node at address `a`. -/
def nextOf (h : List NODE) (a : Nat) : Ptr :=
  match h[a]? with
  | some nd => nd.next
  | none => none

/-- The `prev` field of the node at address `a`. -/
def prevOf (h : List NODE) (a : Nat) : Ptr :=
  match h[a]? with
  | some nd => nd.prev
  | none => none

/-- The heap after the node at address `a` had its `next` field overwritten. -/
def setNext (h : List NODE) (a : Nat) (v : Ptr) : List NODE :=
  match h[a]? with
  | some nd => h.set a { nd with next := v }
  | none => h

/-- The heap after the node at address `a` had its `prev` field overwritten. -/
def setPrev (h : List NODE) (a : Nat) (v : Ptr) : List NODE :=
  match h[a]? with
  | some nd => h.set a { nd with prev := v }
  | none => h

/-- Checks that `p` may be dereferenced and yields its address. -/
def deref (h : List NODE) (p : Ptr) : Except Fault Nat :=
  match p with
  | none => Except.error Fault.nullDeref
  | some a => if a < h.length then Except.ok a else Except.error Fault.badPointer

/-- The read `p->id`. -/
def rdId (h : List NODE) (p : Ptr) : Except Fault Int :=
  match deref h p with
  | Except.ok a => Except.ok (idOf h a)
  | Except.error e => Except.error e

/-- The read `p->next`. -/
def rdNext (h : List NODE) (p : Ptr) : Except Fault Ptr :=
  match deref h p with
  | Except.ok a => Except.ok (nextOf h a)
  | Except.error e => Except.error e

/-- The read `p->prev`. -/
def rdPrev (h : List NODE) (p : Ptr) : Except Fault Ptr :=
  match deref h p with
  | Except.ok a => Except.ok (prevOf h a)
  | Except.error e => Except.error e

/-- The write `p->next = v`. -/
def wrNext (h : List NODE) (p : Ptr) (v : Ptr) : Except Fault (List NODE) :=
  match deref h p with
  | Except.ok a => Except.ok (setNext h a v)
  | Except.error e => Except.error e

/-- The write `p->prev = v`. -/
def wrPrev (h : List NODE) (p : Ptr) (v : Ptr) : Except Fault (List NODE) :=
  match deref h p with
  | Except.ok a => Except.ok (setPrev h a v)
  | Except.error e => Except.error e

/-- The table read `tab[i]`: a fault outside the allocation. -/
def rdTab (tab : List Ptr) (i : Int) : Except Fault Ptr :=
  if i < 0 then Except.error Fault.outOfBounds
  else match tab[i.toNat]? with
    | some p => Except.ok p
    | none => Except.error Fault.outOfBounds

/-- The table write `tab[i] = v`: a fault outside the allocation. -/
def wrTab (tab : List Ptr) (i : Int) (v : Ptr) : Except Fault (List Ptr) :=
  if i < 0 then Except.error Fault.outOfBounds
  else if i.toNat < tab.length then Except.ok (tab.set i.toNat v)
  else Except.error Fault.outOfBounds

/-! ## The operations of `sq.c` -/

/-- `sq_create` (sq.c lines 27-38). -/
def sq_create : SQ :=
  { n := 0, total := 10, start := none, bucket := none,
    buzzer := List.replicate 10 none, heap := [] }

/-- The loop of `sq_display` (sq.c lines 75-78): the ids met when following
`next` from `p` until `NULL`.  `none` when the fuel runs out or a pointer
cannot be dereferenced. -/
def walk (h : List NODE) : Nat → Ptr → Option (List Int)
  | _, none => some []
  | 0, some _ => none
  | fuel + 1, some a =>
    match h[a]? with
    | none => none
    | some nd =>
      match walk h fuel nd.next with
      | some rest => some (nd.id :: rest)
      | none => none

/-- `sq_display` (sq.c lines 71-80): the ids printed, front to back.  A walk
that visits no node twice visits at most `heap.length` nodes, so the fuel
given is enough for every walk that ends. -/
def sq_display (q : SQ) : Option (List Int) :=
  walk q.heap (q.heap.length + 1) q.start

/-- The ids on the free stack, top first (the same walk from `q->bucket`). -/
def free_stack (q : SQ) : Option (List Int) :=
  walk q.heap (q.heap.length + 1) q.bucket

/-- `sq_length` (sq.c lines 89-91). -/
def sq_length (q : SQ) : Int := q.n

/-- The largest value of a C `int` (32 bits). -/
def INT_MAX : Int := 2147483647

/-- The smallest value of a C `int` (32 bits). -/
def INT_MIN : Int := -2147483648

/-- `grow_buzzers` (sq.c lines 157-170).  The product `q->total * 2` is a
signed `int` multiplication: when it leaves the range of `int` the call has
no result. -/
def grow_buzzers (q : SQ) : Except Fault SQ :=
  if q.total * 2 < INT_MIN ∨ INT_MAX < q.total * 2 then Except.error Fault.overflow
  else do
    let size := q.total * 2
    let tmp ← (List.range size.toNat).mapM
      (fun (i : Nat) => if (i : Int) < q.total then rdTab q.buzzer (i : Int) else pure none)
    pure { q with buzzer := tmp, total := size }

/-- `enqueue_buzzer` (sq.c lines 172-195). -/
def enqueue_buzzer (q : SQ) (p : Ptr) : Except Fault (Int × SQ) :=
  if p = none then Except.error Fault.abort
  else do
    let ret ← rdId q.heap p
    let h1 ← wrNext q.heap p none
    if q.start ≠ none then do
      let sp ← rdPrev h1 q.start
      let h2 ← wrPrev h1 p sp
      let sp2 ← rdPrev h2 q.start
      let h3 ← wrNext h2 sp2 p
      let h4 ← wrPrev h3 q.start p
      pure (ret, { q with heap := h4, n := q.n + 1 })
    else do
      let h2 ← wrPrev h1 p p
      pure (ret, { q with heap := h2, start := p, n := q.n + 1 })

/-- `sq_give_buzzer` (sq.c lines 197-219).  The freshly allocated node is
appended to the heap with its `id` already assigned; its `next` and `prev`
are indeterminate in C and are both written by `enqueue_buzzer` before
they are read. -/
def sq_give_buzzer (q : SQ) : Except Fault (Int × SQ) :=
  if q.bucket ≠ none then do
    let new := q.bucket
    let bn ← rdNext q.heap q.bucket
    if bn ≠ none then
      enqueue_buzzer { q with bucket := bn } new
    else
      enqueue_buzzer { q with bucket := none } new
  else do
    let q1 ← if q.n ≥ q.total then grow_buzzers q else pure q
    let new : Ptr := some q1.heap.length
    let h1 := q1.heap ++ [{ id := q1.n, next := none, prev := none }]
    let tab ← wrTab q1.buzzer q1.n new
    enqueue_buzzer { q1 with heap := h1, buzzer := tab } new

/-- `sq_seat` (sq.c lines 233-250). -/
def sq_seat (q : SQ) : Except Fault (Int × SQ) :=
  if q.start = none then pure (-1, q)
  else do
    let buzz := q.start
    let ret ← rdId q.heap buzz
    let bn ← rdNext q.heap buzz
    let h1 ← if bn ≠ none then do
        let bp ← rdPrev q.heap buzz
        wrPrev q.heap bn bp
      else pure q.heap
    let s ← rdNext h1 buzz
    let h2 ← wrPrev h1 buzz none
    let h3 ← wrNext h2 buzz q.bucket
    pure (ret, { q with start := s, bucket := buzz, heap := h3, n := q.n - 1 })

/-- The guard shared by `sq_kick_out` and `sq_take_bribe` (sq.c lines 273
and 319): `true` when the operation returns 0.  The three tests are
evaluated left to right, each only when the earlier ones were false. -/
def not_in_queue (q : SQ) (buzzer : Int) : Except Fault Bool :=
  if buzzer ≥ q.total then pure true
  else do
    let p ← rdTab q.buzzer buzzer
    if p = none then pure true
    else do
      let pv ← rdPrev q.heap p
      pure (decide (pv = none))

/-- `sq_kick_out` (sq.c lines 272-298). -/
def sq_kick_out (q : SQ) (buzzer : Int) : Except Fault (Int × SQ) := do
  let absent ← not_in_queue q buzzer
  if absent then pure (0, q)
  else do
    let buzz ← rdTab q.buzzer buzzer
    if q.start = buzz then do
      let (_, q1) ← sq_seat q
      pure (1, q1)
    else do
      let bn ← rdNext q.heap buzz
      let h2 ← if bn = none then do
          let bp ← rdPrev q.heap buzz
          let h1 ← wrPrev q.heap q.start bp
          let bp1 ← rdPrev h1 buzz
          wrNext h1 bp1 none
        else do
          let bp ← rdPrev q.heap buzz
          let h1 ← wrPrev q.heap bn bp
          let bp1 ← rdPrev h1 buzz
          let bn1 ← rdNext h1 buzz
          wrNext h1 bp1 bn1
      let h3 ← wrPrev h2 buzz none
      let h4 ← wrNext h3 buzz q.bucket
      pure (1, { q with bucket := buzz, heap := h4, n := q.n - 1 })

/-- `sq_take_bribe` (sq.c lines 318-339). -/
def sq_take_bribe (q : SQ) (buzzer : Int) : Except Fault (Int × SQ) := do
  let absent ← not_in_queue q buzzer
  if absent then pure (0, q)
  else do
    let buzz ← rdTab q.buzzer buzzer
    if q.start = buzz then pure (1, q)
    else do
      let sp ← rdPrev q.heap q.start
      if sp = buzz then do
        let bp ← rdPrev q.heap buzz
        let h1 ← wrNext q.heap bp none
        let h2 ← wrNext h1 buzz q.start
        pure (1, { q with start := buzz, heap := h2 })
      else do
        let bn ← rdNext q.heap buzz
        let bp ← rdPrev q.heap buzz
        let h1 ← wrPrev q.heap bn bp
        let bp1 ← rdPrev h1 buzz
        let bn1 ← rdNext h1 buzz
        let h2 ← wrNext h1 bp1 bn1
        let sp1 ← rdPrev h2 q.start
        let h3 ← wrPrev h2 buzz sp1
        let h4 ← wrNext h3 buzz q.start
        pure (1, { q with start := buzz, heap := h4 })

/-! ## Sequences of calls -/

/-- One call of a public operation that changes the queue. -/
inductive Op where
  | give
  | seat
  | kick (buzzer : Int)
  | bribe (buzzer : Int)
  deriving DecidableEq, Repr

/-- The call `op` made on the queue `q`: the value returned and the queue
afterwards. -/
def step (q : SQ) : Op → Except Fault (Int × SQ)
  | Op.give => sq_give_buzzer q
  | Op.seat => sq_seat q
  | Op.kick buzzer => sq_kick_out q buzzer
  | Op.bribe buzzer => sq_take_bribe q buzzer

/-- The calls `ops` made one after the other on `q`: the values returned, in
order, and the final queue. -/
def run (q : SQ) : List Op → Except Fault (List Int × SQ)
  | [] => Except.ok ([], q)
  | op :: ops =>
    match step q op with
    | Except.error e => Except.error e
    | Except.ok (r, q1) =>
      match run q1 ops with
      | Except.error e => Except.error e
      | Except.ok (rs, q2) => Except.ok (r :: rs, q2)

/-- The queue `q` is the result of some finite sequence of calls made on a
freshly created queue. -/
def Reachable (q : SQ) : Prop :=
  ∃ ops rs, run sq_create ops = Except.ok (rs, q)

/-- The queue after three calls of `sq_give_buzzer` on a fresh queue: it
shows 0 1 2 and its free stack is empty. -/
def queue_three : SQ :=
  { n := 3, total := 10, start := some 0, bucket := none,
    buzzer := [some 0, some 1, some 2, none, none, none, none, none, none, none],
    heap := [{ id := 0, next := some 1, prev := some 2 },
             { id := 1, next := some 2, prev := some 0 },
             { id := 2, next := none, prev := some 1 }] }

/-- The queue after three calls of `sq_give_buzzer` and one of `sq_seat`: it
shows 1 2 and its free stack holds 0. -/
def queue_seated : SQ :=
  { n := 2, total := 10, start := some 1, bucket := some 0,
    buzzer := [some 0, some 1, some 2, none, none, none, none, none, none, none],
    heap := [{ id := 0, next := none, prev := none },
             { id := 1, next := some 2, prev := some 2 },
             { id := 2, next := none, prev := some 1 }] }

/-! ## The representation invariant -/

/-- A list segment: following the pointer field `f` from `p` meets exactly
the addresses of `L`, in order, and the field of the last one is `e`
(`p = e` when `L` is empty). -/
def Seg (f : Nat → Ptr) : Ptr → List Nat → Ptr → Prop
  | p, [], e => p = e
  | p, a :: L, e => p = some a ∧ Seg f (f a) L e

instance Seg.decide (f : Nat → Ptr) :
    (p : Ptr) → (L : List Nat) → (e : Ptr) → Decidable (Seg f p L e)
  | p, [], e => inferInstanceAs (Decidable (p = e))
  | p, a :: L, e =>
    have := Seg.decide f (f a) L e
    inferInstanceAs (Decidable (p = some a ∧ Seg f (f a) L e))

/-- The invariants of section 3 of the specification, for a queue whose
active ring holds the nodes at the addresses `L` (front to back) and whose
free stack holds the nodes at the addresses `F` (top first).

* `ring_next`: following `next` from `start` meets `L` and ends in `NULL`
  (the tail's `next` is null);
* `ring_prev`: following `prev` from the tail meets `L` backwards and comes
  back to the tail, that is the `prev` of every slot but the head is its
  predecessor and the head's `prev` is the tail;
* `free_next`, `free_prev`: the free stack is linked through `next` and its
  slots have `prev` cleared;
* `slots`: every slot ever allocated is in the ring or on the free stack,
  and in one of them only, once;
* `ids`, `tab`: every slot has a non-negative id under which the table
  registers it, the ids issued so far are below the number of slots
  allocated (no gaps), and a table entry that is not null is the slot
  with that id;
* `len`, `tab_len`, `total_pos`, `cap`: `n` is the ring size, the table has
  `total` entries, and the capacity is positive and covers every slot. -/
structure Rep (q : SQ) (L F : List Nat) : Prop where
  len : q.n = L.length
  tab_len : (q.buzzer.length : Int) = q.total
  total_pos : 0 < q.total
  cap : (q.heap.length : Int) ≤ q.total
  ring_next : Seg (nextOf q.heap) q.start L none
  ring_prev : Seg (prevOf q.heap) L.getLast? L.reverse L.getLast?
  free_next : Seg (nextOf q.heap) q.bucket F none
  free_prev : ∀ a ∈ F, prevOf q.heap a = none
  slots : (L ++ F).Perm (List.range q.heap.length)
  ids : ∀ a, a < q.heap.length →
    0 ≤ idOf q.heap a ∧ idOf q.heap a < q.heap.length ∧
      q.buzzer.getD (idOf q.heap a).toNat none = some a
  tab : ∀ i, i < q.buzzer.length → ∀ a ∈ q.buzzer.getD i none,
    a < q.heap.length ∧ idOf q.heap a = i

/-- The queue satisfies the invariants of section 3 of the specification. -/
def Inv (q : SQ) : Prop := ∃ L F, Rep q L F

/-- The step from `q` to `q1` allocated no slot and left the table, the
capacity and every id as they were. -/
def Frame (q q1 : SQ) : Prop :=
  q1.buzzer = q.buzzer ∧ q1.total = q.total ∧ q1.heap.length = q.heap.length ∧
    ∀ b, idOf q1.heap b = idOf q.heap b

/-- The ring invariant alone: the ring is a list `L` of distinct allocated
slots; following `next` from `start` meets `L` and ends in `NULL` (the ring
is empty, or the tail's `next` is null and every slot's `next` is its
successor), and following `prev` from the tail meets `L` backwards and
comes back to the tail (the head's `prev` is the tail and the `prev` of every
other slot is its immediate predecessor). -/
def RingInv (q : SQ) : Prop :=
  ∃ L : List Nat, L.Nodup ∧ (∀ a ∈ L, a < q.heap.length) ∧
    Seg (nextOf q.heap) q.start L none ∧
    Seg (prevOf q.heap) L.getLast? L.reverse L.getLast?

/-- The queue after three calls of `sq_give_buzzer` and `sq_take_bribe 1`: it
shows 1 0 2, and the `prev` of slot 0, now second, is still the tail 2. -/
def queue_bribed : SQ :=
  { n := 3, total := 10, start := some 1, bucket := none,
    buzzer := [some 0, some 1, some 2, none, none, none, none, none, none, none],
    heap := [{ id := 0, next := some 2, prev := some 2 },
             { id := 1, next := some 0, prev := some 2 },
             { id := 2, next := none, prev := some 0 }] }

/-- The queue after three calls of `sq_give_buzzer`, `sq_take_bribe 1` and
`sq_take_bribe 0`: the `next` of slot 0 is slot 1 and the `next` of slot 1 is
slot 0. -/
def queue_looping : SQ :=
  { n := 3, total := 10, start := some 0, bucket := none,
    buzzer := [some 0, some 1, some 2, none, none, none, none, none, none, none],
    heap := [{ id := 0, next := some 1, prev := some 2 },
             { id := 1, next := some 0, prev := some 2 },
             { id := 2, next := some 2, prev := some 2 }] }

/-- The queue after three calls of `sq_give_buzzer`, `sq_take_bribe 1`,
`sq_kick_out 0` and one more call of `sq_give_buzzer`: it shows 1 0, its
free stack is empty and `n` is 3. -/
def queue_miscounted : SQ :=
  { n := 3, total := 10, start := some 1, bucket := none,
    buzzer := [some 0, some 1, some 2, none, none, none, none, none, none, none],
    heap := [{ id := 0, next := none, prev := some 2 },
             { id := 1, next := some 0, prev := some 0 },
             { id := 2, next := some 0, prev := some 2 }] }

/-! ## Basic facts about the memory accesses -/

theorem ok_bind {ε α β : Type} (v : α) (f : α → Except ε β) :
    (Except.ok v >>= f) = f v := rfl

theorem error_bind {ε α β : Type} (e : ε) (f : α → Except ε β) :
    ((Except.error e : Except ε α) >>= f) = Except.error e := rfl

@[simp] theorem length_setNext (h : List NODE) (a : Nat) (v : Ptr) :
    (setNext h a v).length = h.length := by
  unfold setNext; split <;> simp

@[simp] theorem length_setPrev (h : List NODE) (a : Nat) (v : Ptr) :
    (setPrev h a v).length = h.length := by
  unfold setPrev; split <;> simp

theorem nextOf_setNext (h : List NODE) (a b : Nat) (v : Ptr) (ha : a < h.length) :
    nextOf (setNext h a v) b = if b = a then v else nextOf h b := by
  unfold setNext nextOf
  rw [List.getElem?_eq_getElem ha]
  simp only [List.getElem?_set]
  by_cases hb : b = a
  · subst hb; simp [ha]
  · have : a ≠ b := fun e => hb e.symm
    simp [hb, this]

@[simp] theorem prevOf_setNext (h : List NODE) (a b : Nat) (v : Ptr) :
    prevOf (setNext h a v) b = prevOf h b := by
  unfold setNext prevOf
  cases hnd : h[a]? with
  | none => rfl
  | some nd =>
    simp only [List.getElem?_set]
    by_cases hb : a = b
    · subst hb
      have ha : a < h.length := by
        rcases List.getElem?_eq_some_iff.1 hnd with ⟨h1, _⟩; exact h1
      simp [ha, hnd]
    · simp [hb]

@[simp] theorem idOf_setNext (h : List NODE) (a b : Nat) (v : Ptr) :
    idOf (setNext h a v) b = idOf h b := by
  unfold setNext idOf
  cases hnd : h[a]? with
  | none => rfl
  | some nd =>
    simp only [List.getElem?_set]
    by_cases hb : a = b
    · subst hb
      have ha : a < h.length := by
        rcases List.getElem?_eq_some_iff.1 hnd with ⟨h1, _⟩; exact h1
      simp [ha, hnd]
    · simp [hb]

theorem prevOf_setPrev (h : List NODE) (a b : Nat) (v : Ptr) (ha : a < h.length) :
    prevOf (setPrev h a v) b = if b = a then v else prevOf h b := by
  unfold setPrev prevOf
  rw [List.getElem?_eq_getElem ha]
  simp only [List.getElem?_set]
  by_cases hb : b = a
  · subst hb; simp [ha]
  · have : a ≠ b := fun e => hb e.symm
    simp [hb, this]

@[simp] theorem nextOf_setPrev (h : List NODE) (a b : Nat) (v : Ptr) :
    nextOf (setPrev h a v) b = nextOf h b := by
  unfold setPrev nextOf
  cases hnd : h[a]? with
  | none => rfl
  | some nd =>
    simp only [List.getElem?_set]
    by_cases hb : a = b
    · subst hb
      have ha : a < h.length := by
        rcases List.getElem?_eq_some_iff.1 hnd with ⟨h1, _⟩; exact h1
      simp [ha, hnd]
    · simp [hb]

@[simp] theorem idOf_setPrev (h : List NODE) (a b : Nat) (v : Ptr) :
    idOf (setPrev h a v) b = idOf h b := by
  unfold setPrev idOf
  cases hnd : h[a]? with
  | none => rfl
  | some nd =>
    simp only [List.getElem?_set]
    by_cases hb : a = b
    · subst hb
      have ha : a < h.length := by
        rcases List.getElem?_eq_some_iff.1 hnd with ⟨h1, _⟩; exact h1
      simp [ha, hnd]
    · simp [hb]

theorem nextOf_append (h : List NODE) (nd : NODE) (b : Nat) :
    nextOf (h ++ [nd]) b = if b = h.length then nd.next else nextOf h b := by
  unfold nextOf
  rcases Nat.lt_trichotomy b h.length with hb | hb | hb
  · rw [List.getElem?_append_left hb]; simp [Nat.ne_of_lt hb]
  · subst hb; simp
  · have h1 : (h ++ [nd])[b]? = none := by
      apply List.getElem?_eq_none; simp; omega
    have h2 : h[b]? = none := by
      apply List.getElem?_eq_none; omega
    simp [h1, h2, Nat.ne_of_gt hb]

theorem prevOf_append (h : List NODE) (nd : NODE) (b : Nat) :
    prevOf (h ++ [nd]) b = if b = h.length then nd.prev else prevOf h b := by
  unfold prevOf
  rcases Nat.lt_trichotomy b h.length with hb | hb | hb
  · rw [List.getElem?_append_left hb]; simp [Nat.ne_of_lt hb]
  · subst hb; simp
  · have h1 : (h ++ [nd])[b]? = none := by
      apply List.getElem?_eq_none; simp; omega
    have h2 : h[b]? = none := by
      apply List.getElem?_eq_none; omega
    simp [h1, h2, Nat.ne_of_gt hb]

theorem idOf_append (h : List NODE) (nd : NODE) (b : Nat) :
    idOf (h ++ [nd]) b = if b = h.length then nd.id else idOf h b := by
  unfold idOf
  rcases Nat.lt_trichotomy b h.length with hb | hb | hb
  · rw [List.getElem?_append_left hb]; simp [Nat.ne_of_lt hb]
  · subst hb; simp
  · have h1 : (h ++ [nd])[b]? = none := by
      apply List.getElem?_eq_none; simp; omega
    have h2 : h[b]? = none := by
      apply List.getElem?_eq_none; omega
    simp [h1, h2, Nat.ne_of_gt hb]

theorem rdId_some (h : List NODE) (a : Nat) (ha : a < h.length) :
    rdId h (some a) = Except.ok (idOf h a) := by
  simp [rdId, deref, ha]

theorem rdNext_some (h : List NODE) (a : Nat) (ha : a < h.length) :
    rdNext h (some a) = Except.ok (nextOf h a) := by
  simp [rdNext, deref, ha]

theorem rdPrev_some (h : List NODE) (a : Nat) (ha : a < h.length) :
    rdPrev h (some a) = Except.ok (prevOf h a) := by
  simp [rdPrev, deref, ha]

theorem wrNext_some (h : List NODE) (a : Nat) (v : Ptr) (ha : a < h.length) :
    wrNext h (some a) v = Except.ok (setNext h a v) := by
  simp [wrNext, deref, ha]

theorem wrPrev_some (h : List NODE) (a : Nat) (v : Ptr) (ha : a < h.length) :
    wrPrev h (some a) v = Except.ok (setPrev h a v) := by
  simp [wrPrev, deref, ha]

/-! ## List segments -/

@[simp] theorem Seg_nil (f : Nat → Ptr) (p e : Ptr) : Seg f p [] e ↔ p = e := Iff.rfl

@[simp] theorem Seg_cons (f : Nat → Ptr) (p e : Ptr) (a : Nat) (L : List Nat) :
    Seg f p (a :: L) e ↔ p = some a ∧ Seg f (f a) L e := Iff.rfl

@[simp] theorem Seg_append_cons (f : Nat → Ptr) (A B : List Nat) (a : Nat) (p e : Ptr) :
    Seg f p (A ++ a :: B) e ↔ Seg f p A (some a) ∧ Seg f (f a) B e := by
  induction A generalizing p with
  | nil => simp
  | cons x A ih => simp [ih, and_assoc]

theorem Seg_congr {f g : Nat → Ptr} {L : List Nat} (hfg : ∀ a ∈ L, f a = g a)
    (p e : Ptr) : Seg f p L e ↔ Seg g p L e := by
  induction L generalizing p with
  | nil => simp
  | cons x L ih =>
    have hx : f x = g x := hfg x (by simp)
    have ih2 := ih (fun a ha => hfg a (by simp [ha])) (g x)
    simp [hx, ih2]

theorem Seg_head {f : Nat → Ptr} {L : List Nat} {p e : Ptr} (hs : Seg f p L e)
    (hne : L ≠ []) : p = L.head? := by
  cases L with
  | nil => exact absurd rfl hne
  | cons x L => simpa using hs.1

theorem walk_of_seg (h : List NODE) (L : List Nat) (fuel : Nat) (p : Ptr)
    (hs : Seg (nextOf h) p L none) (hb : ∀ a ∈ L, a < h.length)
    (hf : L.length ≤ fuel) : walk h fuel p = some (L.map (idOf h)) := by
  induction L generalizing p fuel with
  | nil =>
    simp at hs; subst hs
    cases fuel <;> simp [walk]
  | cons x L ih =>
    obtain ⟨hp, hrest⟩ := hs
    subst hp
    cases fuel with
    | zero => simp at hf
    | succ fuel =>
      have hx : x < h.length := hb x (by simp)
      have hget : h[x]? = some h[x] := List.getElem?_eq_getElem hx
      have hn : nextOf h x = h[x].next := by simp [nextOf, hget]
      have hi : idOf h x = h[x].id := by simp [idOf, hget]
      have := ih fuel (nextOf h x) hrest (fun a ha => hb a (by simp [ha]))
        (by simpa using hf)
      simp [walk, hget, ← hn, this, hi]

/-! ## Consequences of the invariant -/

theorem getD_eq_some {tab : List Ptr} {i a : Nat} :
    tab.getD i none = some a ↔ tab[i]? = some (some a) := by
  rw [List.getD_eq_getElem?_getD]
  cases h : tab[i]? with
  | none => simp
  | some p => simp

theorem Rep.nodup {q : SQ} {L F : List Nat} (r : Rep q L F) : (L ++ F).Nodup :=
  r.slots.nodup_iff.2 (List.nodup_range _)

theorem Rep.mem_iff {q : SQ} {L F : List Nat} (r : Rep q L F) (a : Nat) :
    a ∈ L ++ F ↔ a < q.heap.length := by
  rw [r.slots.mem_iff]; simp

theorem Rep.lt_of_mem_ring {q : SQ} {L F : List Nat} (r : Rep q L F) {a : Nat}
    (ha : a ∈ L) : a < q.heap.length :=
  (r.mem_iff a).1 (by simp [ha])

theorem Rep.lt_of_mem_free {q : SQ} {L F : List Nat} (r : Rep q L F) {a : Nat}
    (ha : a ∈ F) : a < q.heap.length :=
  (r.mem_iff a).1 (by simp [ha])

theorem Rep.slots_length {q : SQ} {L F : List Nat} (r : Rep q L F) :
    L.length + F.length = q.heap.length := by
  have := r.slots.length_eq
  simpa using this

theorem Rep.tab_spec {q : SQ} {L F : List Nat} (r : Rep q L F) {i a : Nat}
    (h : q.buzzer[i]? = some (some a)) : a < q.heap.length ∧ idOf q.heap a = i := by
  have hi : i < q.buzzer.length := by
    rcases List.getElem?_eq_some_iff.1 h with ⟨h1, _⟩; exact h1
  exact r.tab i hi a (getD_eq_some.2 h)

theorem Rep.id_inj {q : SQ} {L F : List Nat} (r : Rep q L F) {a b : Nat}
    (ha : a < q.heap.length) (hb : b < q.heap.length)
    (hab : idOf q.heap a = idOf q.heap b) : a = b := by
  have h1 := (r.ids a ha).2.2
  have h2 := (r.ids b hb).2.2
  rw [hab, h2] at h1
  simpa using h1.symm

theorem Rep.rdTab_id {q : SQ} {L F : List Nat} (r : Rep q L F) {a : Nat}
    (ha : a < q.heap.length) : rdTab q.buzzer (idOf q.heap a) = Except.ok (some a) := by
  obtain ⟨h0, _, h2⟩ := r.ids a ha
  unfold rdTab
  simp [not_lt.2 h0, getD_eq_some.1 h2]

theorem Rep.display {q : SQ} {L F : List Nat} (r : Rep q L F) :
    sq_display q = some (L.map (idOf q.heap)) := by
  apply walk_of_seg _ _ _ _ r.ring_next (fun a ha => r.lt_of_mem_ring ha)
  have := r.slots_length
  omega

theorem Rep.free_stack {q : SQ} {L F : List Nat} (r : Rep q L F) :
    free_stack q = some (F.map (idOf q.heap)) := by
  apply walk_of_seg _ _ _ _ r.free_next (fun a ha => r.lt_of_mem_free ha)
  have := r.slots_length
  omega

theorem Rep.ids_nodup {q : SQ} {L F : List Nat} (r : Rep q L F) :
    ((L ++ F).map (idOf q.heap)).Nodup := by
  apply List.Nodup.map_on _ r.nodup
  intro a ha b hb hab
  exact r.id_inj ((r.mem_iff a).1 ha) ((r.mem_iff b).1 hb) hab

theorem Rep.mem_display {q : SQ} {L F : List Nat} (r : Rep q L F) {a : Nat}
    (ha : a < q.heap.length) : idOf q.heap a ∈ L.map (idOf q.heap) ↔ a ∈ L := by
  constructor
  · intro h
    obtain ⟨b, hb, hbe⟩ := List.mem_map.1 h
    have := r.id_inj (r.lt_of_mem_ring hb) ha hbe
    exact this ▸ hb
  · intro h; exact List.mem_map.2 ⟨a, h, rfl⟩

/-- The part of the invariant that speaks of the table and the ids carries
over to a state with the same table, capacity, heap size and ids. -/
theorem Rep.transfer {q q' : SQ} {L F L' F' : List Nat} (r : Rep q L F)
    (hbuz : q'.buzzer = q.buzzer) (htot : q'.total = q.total)
    (hlen : q'.heap.length = q.heap.length)
    (hid : ∀ b, idOf q'.heap b = idOf q.heap b)
    (hn : q'.n = L'.length)
    (hrn : Seg (nextOf q'.heap) q'.start L' none)
    (hrp : Seg (prevOf q'.heap) L'.getLast? L'.reverse L'.getLast?)
    (hfn : Seg (nextOf q'.heap) q'.bucket F' none)
    (hfp : ∀ a ∈ F', prevOf q'.heap a = none)
    (hperm : (L' ++ F').Perm (L ++ F)) : Rep q' L' F' where
  len := hn
  tab_len := by rw [hbuz, htot]; exact r.tab_len
  total_pos := by rw [htot]; exact r.total_pos
  cap := by rw [hlen, htot]; exact r.cap
  ring_next := hrn
  ring_prev := hrp
  free_next := hfn
  free_prev := hfp
  slots := by rw [hlen]; exact hperm.trans r.slots
  ids := by
    intro a ha
    rw [hlen] at ha
    rw [hid, hlen, hbuz]
    exact r.ids a ha
  tab := by
    intro i hi a ha
    rw [hbuz] at hi ha
    rw [hid, hlen]
    exact r.tab i hi a ha

/-! ## `sq_seat` -/

theorem Rep.seat {q : SQ} {a : Nat} {L F : List Nat} (r : Rep q (a :: L) F) :
    ∃ q1, sq_seat q = Except.ok (idOf q.heap a, q1) ∧ Rep q1 L (a :: F) ∧
      Frame q q1 ∧ q1.n = q.n - 1 := by
  have ha : a < q.heap.length := r.lt_of_mem_ring (by simp)
  have hnd := r.nodup
  have hstart : q.start = some a := r.ring_next.1
  have hnext : Seg (nextOf q.heap) (nextOf q.heap a) L none := r.ring_next.2
  have hprev := r.ring_prev
  have haL : a ∉ L := by
    intro h; simp [h] at hnd
  have haF : a ∉ F := by
    intro h; simp [h] at hnd
  cases L with
  | nil =>
    have hna : nextOf q.heap a = none := by simpa using hnext
    refine ⟨{ q with start := none, bucket := some a, n := q.n - 1
                     heap := setNext (setPrev q.heap a none) a q.bucket }, ?_, ?_, ?_, rfl⟩
    · simp [sq_seat, hstart, rdId_some, rdNext_some, wrPrev_some, wrNext_some, ha, hna, ok_bind,
        pure, Except.pure]
    · refine Rep.transfer r rfl rfl (by simp) (by simp) ?_ ?_ ?_ ?_ ?_ ?_
      · have := r.len; simp at this; simp [this]
      · simp
      · simp
      · simp only [Seg_cons, true_and]
        rw [nextOf_setNext _ _ _ _ (by simpa using ha)]
        simp only [if_true]
        refine (Seg_congr ?_ _ _).2 r.free_next
        intro b hb
        have : b ≠ a := fun e => haF (e ▸ hb)
        rw [nextOf_setNext _ _ _ _ (by simpa using ha)]
        simp [this]
      · intro b hb
        simp only [prevOf_setNext]
        rw [prevOf_setPrev _ _ _ _ ha]
        rcases List.mem_cons.1 hb with hb | hb
        · simp [hb]
        · have : b ≠ a := fun e => haF (e ▸ hb)
          simp [this, r.free_prev b hb]
      · simp
    · exact ⟨rfl, rfl, by simp, by simp⟩
  | cons b L =>
    have hb : b < q.heap.length := r.lt_of_mem_ring (by simp)
    have hab : a ≠ b := by
      intro e; simp [e] at hnd
    obtain ⟨t, ht⟩ : ∃ t, (b :: L).getLast? = some t :=
      ⟨_, List.getLast?_eq_getLast _ (by simp)⟩
    have hna : nextOf q.heap a = some b := by simpa using hnext.1
    simp only [List.getLast?_cons_cons, ht, List.reverse_cons, List.append_assoc,
      List.singleton_append, Seg_append_cons, Seg_cons, Seg_nil] at hprev
    obtain ⟨hpL, -, hpa⟩ := hprev
    refine ⟨{ q with start := some b, bucket := some a, n := q.n - 1
                     heap := setNext (setPrev (setPrev q.heap b (some t)) a none) a q.bucket },
      ?_, ?_, ?_, rfl⟩
    · simp [sq_seat, hstart, rdId_some, rdNext_some, rdPrev_some, wrPrev_some, wrNext_some, ha,
        hb, hna, hpa, ok_bind, pure, Except.pure]
    · have hn1 : ∀ x, nextOf (setNext (setPrev (setPrev q.heap b (some t)) a none) a q.bucket) x
          = if x = a then q.bucket else nextOf q.heap x := by
        intro x; rw [nextOf_setNext _ _ _ _ (by simpa using ha)]; simp
      have hp1 : ∀ x, prevOf (setNext (setPrev (setPrev q.heap b (some t)) a none) a q.bucket) x
          = if x = a then none else if x = b then some t else prevOf q.heap x := by
        intro x
        rw [prevOf_setNext, prevOf_setPrev _ _ _ _ (by simpa using ha),
          prevOf_setPrev _ _ _ _ hb]
      refine Rep.transfer r rfl rfl (by simp) (by simp) ?_ ?_ ?_ ?_ ?_ ?_
      · have := r.len; simp at this; simp [this]
      · show Seg _ (some b) (b :: L) none
        refine (Seg_congr ?_ _ _).2 (hna ▸ hnext)
        intro x hx
        have : x ≠ a := fun e => haL (e ▸ hx)
        simp [hn1, this]
      · show Seg _ (b :: L).getLast? (b :: L).reverse (b :: L).getLast?
        simp only [ht, List.reverse_cons, Seg_append_cons, Seg_nil]
        refine ⟨(Seg_congr ?_ _ _).2 hpL, ?_⟩
        · intro x hx
          have hxL : x ∈ L := by simpa using hx
          have h1 : x ≠ a := fun e => haL (e ▸ (List.mem_cons_of_mem _ hxL))
          have h2 : x ≠ b := by
            intro e; subst e
            simp [hxL] at hnd
          simp [hp1, h1, h2]
        · simp [hp1, hab.symm]
      · show Seg _ (some a) (a :: F) none
        simp only [Seg_cons, true_and, hn1, if_true]
        refine (Seg_congr ?_ _ _).2 r.free_next
        intro x hx
        have : x ≠ a := fun e => haF (e ▸ hx)
        simp [hn1, this]
      · intro x hx
        rcases List.mem_cons.1 hx with hx | hx
        · simp [hp1, hx]
        · have h1 : x ≠ a := fun e => haF (e ▸ hx)
          have h2 : x ≠ b := by
            intro e; subst e
            simp [hx] at hnd
          simp [hp1, h1, h2, r.free_prev x hx]
      · exact List.perm_middle
    · exact ⟨rfl, rfl, by simp, by simp⟩

/-! ## The guard of `sq_kick_out` and `sq_take_bribe` -/

theorem Seg_field_ne_none {f : Nat → Ptr} {L : List Nat} {p e : Ptr}
    (hs : Seg f p L e) (he : e ≠ none) {a : Nat} (ha : a ∈ L) : f a ≠ none := by
  induction L generalizing p with
  | nil => simp at ha
  | cons x L ih =>
    obtain ⟨-, hrest⟩ := hs
    rcases List.mem_cons.1 ha with hax | haL
    · subst hax
      cases L with
      | nil => simp at hrest; rw [hrest]; exact he
      | cons y L => rw [hrest.1]; simp
    · exact ih hrest haL

theorem Rep.prev_ne_none {q : SQ} {L F : List Nat} (r : Rep q L F) {a : Nat}
    (ha : a ∈ L) : prevOf q.heap a ≠ none := by
  have hne : L ≠ [] := List.ne_nil_of_mem ha
  have hT : L.getLast? ≠ none := by
    rw [List.getLast?_eq_getLast _ hne]; simp
  exact Seg_field_ne_none r.ring_prev hT (by simpa using ha)

theorem Rep.id_lt_total {q : SQ} {L F : List Nat} (r : Rep q L F) {a : Nat}
    (ha : a < q.heap.length) : idOf q.heap a < q.total := by
  have h1 := (r.ids a ha).2.1
  have h2 := r.cap
  omega

theorem Rep.present {q : SQ} {L F : List Nat} (r : Rep q L F) {a : Nat}
    (ha : a ∈ L) : not_in_queue q (idOf q.heap a) = Except.ok false := by
  have hlt := r.lt_of_mem_ring ha
  have h1 := r.id_lt_total hlt
  have h2 := r.rdTab_id hlt
  have h3 := r.prev_ne_none ha
  simp [not_in_queue, not_le.2 h1, h2, ok_bind, rdPrev_some, hlt, h3, pure, Except.pure]

theorem Rep.absent {q : SQ} {L F : List Nat} (r : Rep q L F) {t : Int}
    (h0 : 0 ≤ t) (ht : t ∉ L.map (idOf q.heap)) :
    not_in_queue q t = Except.ok true := by
  unfold not_in_queue
  by_cases hge : t ≥ q.total
  · simp [hge, pure, Except.pure]
  · have hlt : t.toNat < q.buzzer.length := by
      have := r.tab_len
      omega
    have hget : q.buzzer[t.toNat]? = some q.buzzer[t.toNat] :=
      List.getElem?_eq_getElem hlt
    have hrd : rdTab q.buzzer t = Except.ok q.buzzer[t.toNat] := by
      simp [rdTab, not_lt.2 h0, hget]
    rw [if_neg hge, hrd, ok_bind]
    cases hp : q.buzzer[t.toNat] with
    | none => simp [pure, Except.pure]
    | some a =>
      rw [hp] at hget
      obtain ⟨ha, hid⟩ := r.tab_spec hget
      have hid2 : idOf q.heap a = t := by rw [hid]; omega
      have hmem := (r.mem_iff a).2 ha
      have haL : a ∉ L := by
        intro h; apply ht; rw [← hid2]; exact List.mem_map.2 ⟨a, h, rfl⟩
      have haF : a ∈ F := by
        rcases List.mem_append.1 hmem with h | h
        · exact absurd h haL
        · exact h
      simp [rdPrev_some, ha, r.free_prev a haF, ok_bind, pure, Except.pure]

/-! ## `sq_kick_out` -/

theorem Seg_reverse_split (f : Nat → Ptr) (T e : Ptr) (A B : List Nat) (a : Nat) :
    Seg f T (A ++ a :: B).reverse e ↔ Seg f T B.reverse (some a) ∧ Seg f (f a) A.reverse e := by
  simp [Seg_append_cons]

theorem Rep.kick_out {q : SQ} {L F : List Nat} (r : Rep q L F) {a : Nat} (ha : a ∈ L) :
    ∃ q1, sq_kick_out q (idOf q.heap a) = Except.ok (1, q1) ∧
      Rep q1 (L.erase a) (a :: F) ∧ Frame q q1 ∧ q1.n = q.n - 1 := by
  have hlt := r.lt_of_mem_ring ha
  have hguard := r.present ha
  have htab := r.rdTab_id hlt
  have hnd := r.nodup
  obtain ⟨A, B, hL⟩ := List.append_of_mem ha
  subst hL
  have haA : a ∉ A := by
    intro h
    have := (List.nodup_append.1 (List.nodup_append.1 hnd).1).2.2
    exact this h (by simp)
  have haB : a ∉ B := by
    intro h
    have := (List.nodup_append.1 (List.nodup_append.1 hnd).1).2.1
    simp [h] at this
  have haF : a ∉ F := by
    intro h
    exact (List.nodup_append.1 hnd).2.2 ha h
  have herase : (A ++ a :: B).erase a = A ++ B := by
    rw [List.erase_append_right _ haA]; simp
  rw [herase]
  cases A with
  | nil =>
    obtain ⟨q1, h1, h2, h3, h4⟩ := r.seat
    refine ⟨q1, ?_, h2, h3, h4⟩
    have hstart : q.start = some a := r.ring_next.1
    simp only [sq_kick_out, hguard, ok_bind, htab, hstart, h1]
    simp [pure, Except.pure]
  | cons x A1 =>
    obtain ⟨A0, p, hA⟩ : ∃ A0 p, x :: A1 = A0 ++ [p] :=
      ⟨_, _, (List.dropLast_append_getLast (List.cons_ne_nil x A1)).symm⟩
    have hxa : x ≠ a := by
      intro e; apply haA; simp [e]
    have hstart : q.start = some x := r.ring_next.1
    have hx : x < q.heap.length := r.lt_of_mem_ring (by simp)
    have hpA : p ∈ x :: A1 := by rw [hA]; simp
    have hp : p < q.heap.length := r.lt_of_mem_ring (List.mem_append_left _ hpA)
    have hpa : p ≠ a := fun e => haA (e ▸ hpA)
    have hNL : (x :: A1 ++ a :: B).Nodup := (List.nodup_append.1 hnd).1
    have hNA : (x :: A1).Nodup := (List.nodup_append.1 hNL).1
    have hNA0 : (A0 ++ [p]).Nodup := hA ▸ hNA
    have hpF : p ∉ F := fun h =>
      (List.nodup_append.1 hnd).2.2 (List.mem_append_left _ hpA) h
    have hxF : x ∉ F := fun h =>
      (List.nodup_append.1 hnd).2.2 (by simp) h
    have hn := r.ring_next
    have hpv := r.ring_prev
    have hpv2 := r.ring_prev
    rw [hA] at hn hpv2
    simp only [List.append_assoc, List.singleton_append, Seg_append_cons, Seg_cons,
      List.reverse_append, List.reverse_cons, List.reverse_nil, List.nil_append,
      List.cons_append] at hn hpv2
    obtain ⟨hnA0, hnp, hnB⟩ := hn
    have hpva : prevOf q.heap a = some p := hpv2.2.1
    cases B with
    | nil =>
      have hna : nextOf q.heap a = none := by simpa using hnB
      have hT : (x :: A1 ++ [a]).getLast? = some a := List.getLast?_concat _
      rw [hT] at hpv
      simp only [List.reverse_append, List.reverse_cons, List.reverse_nil, List.nil_append,
        List.singleton_append, Seg_cons, Seg_append_cons, Seg_nil, true_and] at hpv
      obtain ⟨hpvA1, hpvx⟩ := hpv
      rw [hpva] at hpvA1
      refine ⟨{ q with bucket := some a, n := q.n - 1
                       heap := setNext (setPrev (setNext (setPrev q.heap x (some p)) p none)
                          a none) a q.bucket }, ?_, ?_, ?_, rfl⟩
      · simp [sq_kick_out, hguard, htab, ok_bind, hstart, hxa, rdNext_some, rdPrev_some,
          wrPrev_some, wrNext_some, hlt, hx, hp, hna, hpva, prevOf_setPrev, hxa.symm,
          pure, Except.pure]
      · have hn1 : ∀ y, nextOf (setNext (setPrev (setNext (setPrev q.heap x (some p)) p none)
              a none) a q.bucket) y
            = if y = a then q.bucket else if y = p then none else nextOf q.heap y := by
          intro y
          rw [nextOf_setNext _ _ _ _ (by simpa using hlt), nextOf_setPrev,
            nextOf_setNext _ _ _ _ (by simpa using hp), nextOf_setPrev]
        have hp1 : ∀ y, prevOf (setNext (setPrev (setNext (setPrev q.heap x (some p)) p none)
              a none) a q.bucket) y
            = if y = a then none else if y = x then some p else prevOf q.heap y := by
          intro y
          rw [prevOf_setNext, prevOf_setPrev _ _ _ _ (by simpa using hlt), prevOf_setNext,
            prevOf_setPrev _ _ _ _ hx]
        refine Rep.transfer r rfl rfl (by simp) (by simp) ?_ ?_ ?_ ?_ ?_ ?_
        · have := r.len; simp at this; simp [this]
        · show Seg _ q.start (x :: A1 ++ []) none
          rw [List.append_nil, hA]
          simp only [Seg_append_cons, Seg_nil]
          refine ⟨(Seg_congr ?_ _ _).2 hnA0, ?_⟩
          · intro y hy
            have h1 : y ≠ a := by
              intro e; apply haA; rw [hA, ← e]; simp [hy]
            have h2 : y ≠ p := by
              intro e
              exact (List.nodup_append.1 hNA0).2.2 hy (by simp [e])
            simp [hn1, h1, h2]
          · simp [hn1, hpa]
        · show Seg _ (x :: A1 ++ []).getLast? (x :: A1 ++ []).reverse (x :: A1 ++ []).getLast?
          have hT2 : (x :: A1).getLast? = some p := by rw [hA]; simp
          rw [List.append_nil, hT2]
          simp only [List.reverse_cons, Seg_append_cons, Seg_nil]
          refine ⟨(Seg_congr ?_ _ _).2 hpvA1, ?_⟩
          · intro y hy
            have hy1 : y ∈ A1 := by simpa using hy
            have h1 : y ≠ a := by
              intro e; apply haA; rw [← e]; simp [hy1]
            have h2 : y ≠ x := by
              intro e; subst e
              simp [hy1] at hNA
            simp [hp1, h1, h2]
          · simp [hp1, hxa]
        · show Seg _ (some a) (a :: F) none
          simp only [Seg_cons, true_and, hn1, if_true]
          refine (Seg_congr ?_ _ _).2 r.free_next
          intro y hy
          have h1 : y ≠ a := fun e => haF (e ▸ hy)
          have h2 : y ≠ p := fun e => hpF (e ▸ hy)
          simp [hn1, h1, h2]
        · intro y hy
          rcases List.mem_cons.1 hy with hy | hy
          · simp [hp1, hy]
          · have h1 : y ≠ a := fun e => haF (e ▸ hy)
            have h2 : y ≠ x := fun e => hxF (e ▸ hy)
            simp [hp1, h1, h2, r.free_prev y hy]
        · simp
      · exact ⟨rfl, rfl, by simp, by simp⟩
    | cons s B1 =>
      have hs : s < q.heap.length := r.lt_of_mem_ring (by simp)
      have hdisj : ∀ y, y ∈ x :: A1 → y ∈ a :: s :: B1 → False :=
        fun y h1 h2 => (List.nodup_append.1 hNL).2.2 h1 h2
      have hNB : (a :: s :: B1).Nodup := (List.nodup_append.1 hNL).2.1
      have hsa : s ≠ a := by
        intro e; simp [e] at hNB
      have hsp : s ≠ p := fun e => hdisj p hpA (by simp [e])
      have hsF : s ∉ F := fun h =>
        (List.nodup_append.1 hnd).2.2 (by simp) h
      obtain ⟨hna, hnB1⟩ := hnB
      have hT : (x :: A1 ++ a :: s :: B1).getLast? = (x :: A1 ++ s :: B1).getLast? := by
        rw [List.getLast?_append_cons, List.getLast?_append_cons, List.getLast?_cons_cons]
      rw [hT, Seg_reverse_split, List.reverse_cons, Seg_append_cons, Seg_nil] at hpv
      obtain ⟨⟨hpvB, hpvs⟩, hpvA⟩ := hpv
      rw [hpva] at hpvA
      refine ⟨{ q with bucket := some a, n := q.n - 1
                       heap := setNext (setPrev (setNext (setPrev q.heap s (some p)) p (some s))
                          a none) a q.bucket }, ?_, ?_, ?_, rfl⟩
      · simp [sq_kick_out, hguard, htab, ok_bind, hstart, hxa, rdNext_some, rdPrev_some,
          wrPrev_some, wrNext_some, hlt, hs, hp, hna, hpva, prevOf_setPrev, hsa.symm,
          pure, Except.pure]
      · have hn1 : ∀ y, nextOf (setNext (setPrev (setNext (setPrev q.heap s (some p)) p
              (some s)) a none) a q.bucket) y
            = if y = a then q.bucket else if y = p then some s else nextOf q.heap y := by
          intro y
          rw [nextOf_setNext _ _ _ _ (by simpa using hlt), nextOf_setPrev,
            nextOf_setNext _ _ _ _ (by simpa using hp), nextOf_setPrev]
        have hp1 : ∀ y, prevOf (setNext (setPrev (setNext (setPrev q.heap s (some p)) p
              (some s)) a none) a q.bucket) y
            = if y = a then none else if y = s then some p else prevOf q.heap y := by
          intro y
          rw [prevOf_setNext, prevOf_setPrev _ _ _ _ (by simpa using hlt), prevOf_setNext,
            prevOf_setPrev _ _ _ _ hs]
        refine Rep.transfer r rfl rfl (by simp) (by simp) ?_ ?_ ?_ ?_ ?_ ?_
        · have := r.len; simp at this; simp [this]; omega
        · show Seg _ q.start (x :: A1 ++ s :: B1) none
          rw [hA]
          simp only [List.append_assoc, List.singleton_append, Seg_append_cons, Seg_cons,
            true_and]
          refine ⟨(Seg_congr ?_ _ _).2 hnA0, ?_, ?_⟩
          · intro y hy
            have h1 : y ≠ a := by
              intro e; apply haA; rw [hA, ← e]; simp [hy]
            have h2 : y ≠ p := by
              intro e
              exact (List.nodup_append.1 hNA0).2.2 hy (by simp [e])
            simp [hn1, h1, h2]
          · simp [hn1, hpa]
          · rw [hn1, if_neg hsa, if_neg hsp]
            refine (Seg_congr ?_ _ _).2 hnB1
            intro y hy
            have h1 : y ≠ a := by
              intro e; subst e; simp [hy] at hNB
            have h2 : y ≠ p := fun e => hdisj p hpA (by simp [← e, hy])
            simp [hn1, h1, h2]
        · show Seg _ (x :: A1 ++ s :: B1).getLast? (x :: A1 ++ s :: B1).reverse
            (x :: A1 ++ s :: B1).getLast?
          rw [Seg_reverse_split]
          refine ⟨(Seg_congr ?_ _ _).2 hpvB, ?_⟩
          · intro y hy
            have hy1 : y ∈ B1 := by simpa using hy
            have h1 : y ≠ a := by
              intro e; subst e; simp [hy1] at hNB
            have h2 : y ≠ s := by
              intro e; subst e; simp [hy1] at hNB
            simp [hp1, h1, h2]
          · rw [hp1, if_neg hsa, if_pos rfl]
            refine (Seg_congr ?_ _ _).2 hpvA
            intro y hy
            have hy1 : y ∈ x :: A1 := List.mem_reverse.1 hy
            have h1 : y ≠ a := fun e => haA (e ▸ hy1)
            have h2 : y ≠ s := fun e => hdisj y hy1 (by simp [e])
            simp [hp1, h1, h2]
        · show Seg _ (some a) (a :: F) none
          simp only [Seg_cons, true_and, hn1, if_true]
          refine (Seg_congr ?_ _ _).2 r.free_next
          intro y hy
          have h1 : y ≠ a := fun e => haF (e ▸ hy)
          have h2 : y ≠ p := fun e => hpF (e ▸ hy)
          simp [hn1, h1, h2]
        · intro y hy
          rcases List.mem_cons.1 hy with hy | hy
          · simp [hp1, hy]
          · have h1 : y ≠ a := fun e => haF (e ▸ hy)
            have h2 : y ≠ s := fun e => hsF (e ▸ hy)
            simp [hp1, h1, h2, r.free_prev y hy]
        · have h1 : (x :: A1 ++ s :: B1 ++ a :: F).Perm (a :: (x :: A1 ++ s :: B1 ++ F)) :=
            List.perm_middle
          have h2 : (x :: A1 ++ a :: s :: B1 ++ F).Perm (a :: (x :: A1 ++ s :: B1 ++ F)) := by
            rw [List.append_assoc, List.cons_append a, List.append_assoc]
            exact List.perm_middle
          exact h1.trans h2.symm
      · exact ⟨rfl, rfl, by simp, by simp⟩

/-! ## `sq_take_bribe` -/

theorem Rep.head_prev {q : SQ} {x : Nat} {M F : List Nat} (r : Rep q (x :: M) F) :
    prevOf q.heap x = (x :: M).getLast? := by
  have h := r.ring_prev
  rw [List.reverse_cons, Seg_append_cons, Seg_nil] at h
  exact h.2

theorem Rep.take_bribe {q : SQ} {L F : List Nat} (r : Rep q L F) {a : Nat} (ha : a ∈ L) :
    ∃ q1, sq_take_bribe q (idOf q.heap a) = Except.ok (1, q1) ∧
      Seg (nextOf q1.heap) q1.start (a :: L.erase a) none ∧
      Frame q q1 ∧ q1.n = q.n ∧ q1.bucket = q.bucket ∧
      (∀ y ∈ F, nextOf q1.heap y = nextOf q.heap y ∧ prevOf q1.heap y = prevOf q.heap y) ∧
      prevOf q1.heap a ≠ none := by
  have hlt := r.lt_of_mem_ring ha
  have hguard := r.present ha
  have htab := r.rdTab_id hlt
  have hnd := r.nodup
  obtain ⟨A, B, hL⟩ := List.append_of_mem ha
  subst hL
  have hNL : (A ++ a :: B).Nodup := (List.nodup_append.1 hnd).1
  have haA : a ∉ A := fun h => (List.nodup_append.1 hNL).2.2 h (by simp)
  have haF : a ∉ F := fun h => (List.nodup_append.1 hnd).2.2 ha h
  have herase : (A ++ a :: B).erase a = A ++ B := by
    rw [List.erase_append_right _ haA]; simp
  rw [herase]
  cases A with
  | nil =>
    have hstart : q.start = some a := r.ring_next.1
    refine ⟨q, ?_, ?_, ⟨rfl, rfl, rfl, fun _ => rfl⟩, rfl, rfl, fun _ _ => ⟨rfl, rfl⟩,
      r.prev_ne_none ha⟩
    · simp [sq_take_bribe, hguard, ok_bind, htab, hstart, pure, Except.pure]
    · have := r.ring_next
      simpa [hstart] using this
  | cons x A1 =>
    obtain ⟨A0, p, hA⟩ : ∃ A0 p, x :: A1 = A0 ++ [p] :=
      ⟨_, _, (List.dropLast_append_getLast (List.cons_ne_nil x A1)).symm⟩
    have hxa : x ≠ a := by
      intro e; apply haA; simp [e]
    have hstart : q.start = some x := r.ring_next.1
    have hx : x < q.heap.length := r.lt_of_mem_ring (by simp)
    have hpA : p ∈ x :: A1 := by rw [hA]; simp
    have hp : p < q.heap.length := r.lt_of_mem_ring (List.mem_append_left _ hpA)
    have hpa : p ≠ a := fun e => haA (e ▸ hpA)
    have hNA : (x :: A1).Nodup := (List.nodup_append.1 hNL).1
    have hNA0 : (A0 ++ [p]).Nodup := hA ▸ hNA
    have hpF : p ∉ F := fun h =>
      (List.nodup_append.1 hnd).2.2 (List.mem_append_left _ hpA) h
    have hhead : prevOf q.heap x = (x :: A1 ++ a :: B).getLast? := r.head_prev
    have hn := r.ring_next
    have hpv := r.ring_prev
    rw [hA] at hn
    simp only [List.append_assoc, List.singleton_append, Seg_append_cons, Seg_cons] at hn
    obtain ⟨hnA0, hnp, hnB⟩ := hn
    rw [hstart] at hnA0
    rw [Seg_reverse_split, hA, List.reverse_append, List.reverse_cons, List.reverse_nil,
      List.nil_append, List.singleton_append, Seg_cons] at hpv
    have hpva : prevOf q.heap a = some p := hpv.2.1
    cases B with
    | nil =>
      have hna : nextOf q.heap a = none := by simpa using hnB
      have hT : (x :: A1 ++ [a]).getLast? = some a := List.getLast?_concat _
      rw [hT] at hhead
      refine ⟨{ q with start := some a
                       heap := setNext (setNext q.heap p none) a (some x) },
        ?_, ?_, ⟨rfl, rfl, by simp, by simp⟩, rfl, rfl, ?_, ?_⟩
      · simp [sq_take_bribe, hguard, htab, ok_bind, hstart, hxa, rdNext_some, rdPrev_some,
          wrPrev_some, wrNext_some, hlt, hx, hp, hna, hpva, hhead, pure, Except.pure]
      · have hn1 : ∀ y, nextOf (setNext (setNext q.heap p none) a (some x)) y
            = if y = a then some x else if y = p then none else nextOf q.heap y := by
          intro y
          rw [nextOf_setNext _ _ _ _ (by simpa using hlt), nextOf_setNext _ _ _ _ hp]
        show Seg _ (some a) (a :: (x :: A1 ++ [])) none
        rw [List.append_nil, hA]
        simp only [Seg_cons, Seg_append_cons, Seg_nil, true_and, hn1, if_true]
        refine ⟨(Seg_congr ?_ _ _).2 hnA0, ?_⟩
        · intro y hy
          have h1 : y ≠ a := by
            intro e; apply haA; rw [hA, ← e]; simp [hy]
          have h2 : y ≠ p := by
            intro e
            exact (List.nodup_append.1 hNA0).2.2 hy (by simp [e])
          simp [hn1, h1, h2]
        · simp [hpa]
      · intro y hy
        have h1 : y ≠ a := fun e => haF (e ▸ hy)
        have h2 : y ≠ p := fun e => hpF (e ▸ hy)
        refine ⟨?_, by simp⟩
        show nextOf (setNext (setNext q.heap p none) a (some x)) y = _
        rw [nextOf_setNext _ _ _ _ (by simpa using hlt), nextOf_setNext _ _ _ _ hp]
        simp [h1, h2]
      · show prevOf (setNext (setNext q.heap p none) a (some x)) a ≠ none
        simp [hpva]
    | cons s B1 =>
      have hs : s < q.heap.length := r.lt_of_mem_ring (by simp)
      have hdisj : ∀ y, y ∈ x :: A1 → y ∈ a :: s :: B1 → False :=
        fun y h1 h2 => (List.nodup_append.1 hNL).2.2 h1 h2
      have hNB : (a :: s :: B1).Nodup := (List.nodup_append.1 hNL).2.1
      have hsa : s ≠ a := by
        intro e; simp [e] at hNB
      have hsp : s ≠ p := fun e => hdisj p hpA (by simp [e])
      have hsx : s ≠ x := fun e => hdisj x (by simp) (by simp [e])
      have hsF : s ∉ F := fun h =>
        (List.nodup_append.1 hnd).2.2 (by simp) h
      obtain ⟨hna, hnB1⟩ := hnB
      obtain ⟨t, ht⟩ : ∃ t, (s :: B1).getLast? = some t :=
        ⟨_, List.getLast?_eq_getLast _ (by simp)⟩
      have htB : t ∈ s :: B1 := List.mem_of_getLast?_eq_some ht
      have hta : t ≠ a := by
        intro e; subst e
        have : t ∉ s :: B1 := (List.nodup_cons.1 hNB).1
        exact this htB
      rw [List.getLast?_append_cons, List.getLast?_cons_cons, ht] at hhead
      refine ⟨{ q with start := some a
                       heap := setNext (setPrev (setNext (setPrev q.heap s (some p)) p (some s))
                          a (some t)) a (some x) },
        ?_, ?_, ⟨rfl, rfl, by simp, by simp⟩, rfl, rfl, ?_, ?_⟩
      · simp [sq_take_bribe, hguard, htab, ok_bind, hstart, hxa, rdNext_some, rdPrev_some,
          wrPrev_some, wrNext_some, hlt, hx, hp, hs, hna, hpva, hhead, hta, prevOf_setPrev,
          hsa.symm, hsx.symm, pure, Except.pure]
      · have hn1 : ∀ y, nextOf (setNext (setPrev (setNext (setPrev q.heap s (some p)) p
              (some s)) a (some t)) a (some x)) y
            = if y = a then some x else if y = p then some s else nextOf q.heap y := by
          intro y
          rw [nextOf_setNext _ _ _ _ (by simpa using hlt), nextOf_setPrev,
            nextOf_setNext _ _ _ _ (by simpa using hp), nextOf_setPrev]
        show Seg _ (some a) (a :: (x :: A1 ++ s :: B1)) none
        rw [hA]
        simp only [List.append_assoc, List.singleton_append, Seg_cons, Seg_append_cons,
          true_and, hn1, if_true]
        refine ⟨(Seg_congr ?_ _ _).2 hnA0, ?_, ?_⟩
        · intro y hy
          have h1 : y ≠ a := by
            intro e; apply haA; rw [hA, ← e]; simp [hy]
          have h2 : y ≠ p := by
            intro e
            exact (List.nodup_append.1 hNA0).2.2 hy (by simp [e])
          simp [hn1, h1, h2]
        · simp [hpa]
        · rw [if_neg hsa, if_neg hsp]
          refine (Seg_congr ?_ _ _).2 hnB1
          intro y hy
          have h1 : y ≠ a := by
            intro e; subst e; simp [hy] at hNB
          have h2 : y ≠ p := fun e => hdisj p hpA (by simp [← e, hy])
          simp [hn1, h1, h2]
      · intro y hy
        have h1 : y ≠ a := fun e => haF (e ▸ hy)
        have h2 : y ≠ p := fun e => hpF (e ▸ hy)
        have h3 : y ≠ s := fun e => hsF (e ▸ hy)
        constructor
        · show nextOf (setNext (setPrev (setNext (setPrev q.heap s (some p)) p
              (some s)) a (some t)) a (some x)) y = _
          rw [nextOf_setNext _ _ _ _ (by simpa using hlt), nextOf_setPrev,
            nextOf_setNext _ _ _ _ (by simpa using hp), nextOf_setPrev]
          simp [h1, h2]
        · show prevOf (setNext (setPrev (setNext (setPrev q.heap s (some p)) p
              (some s)) a (some t)) a (some x)) y = _
          rw [prevOf_setNext, prevOf_setPrev _ _ _ _ (by simpa using hlt), prevOf_setNext,
            prevOf_setPrev _ _ _ _ hs]
          simp [h1, h3]
      · show prevOf (setNext (setPrev (setNext (setPrev q.heap s (some p)) p
            (some s)) a (some t)) a (some x)) a ≠ none
        rw [prevOf_setNext, prevOf_setPrev _ _ _ _ (by simpa using hlt)]
        simp

/-! ## `enqueue_buzzer` -/

theorem enqueue_ring (q : SQ) (L : List Nat) (a : Nat)
    (hn : Seg (nextOf q.heap) q.start L none)
    (hpv : Seg (prevOf q.heap) L.getLast? L.reverse L.getLast?)
    (hb : ∀ y ∈ L, y < q.heap.length) (ha : a < q.heap.length)
    (haL : a ∉ L) (hNL : L.Nodup) :
    ∃ q1, enqueue_buzzer q (some a) = Except.ok (idOf q.heap a, q1) ∧
      Seg (nextOf q1.heap) q1.start (L ++ [a]) none ∧
      Seg (prevOf q1.heap) (some a) (L ++ [a]).reverse (some a) ∧
      q1.heap.length = q.heap.length ∧ (∀ b, idOf q1.heap b = idOf q.heap b) ∧
      q1.buzzer = q.buzzer ∧ q1.total = q.total ∧ q1.bucket = q.bucket ∧
      q1.n = q.n + 1 ∧
      ∀ y, y ∉ L → y ≠ a →
        nextOf q1.heap y = nextOf q.heap y ∧ prevOf q1.heap y = prevOf q.heap y := by
  cases L with
  | nil =>
    have hstart : q.start = none := by simpa using hn
    refine ⟨{ q with start := some a, n := q.n + 1
                     heap := setPrev (setNext q.heap a none) a (some a) },
      ?_, ?_, ?_, by simp, by simp, rfl, rfl, rfl, rfl, ?_⟩
    · simp [enqueue_buzzer, hstart, rdId_some, wrNext_some, wrPrev_some, ha, ok_bind,
        pure, Except.pure]
    · show Seg _ (some a) [a] none
      simp [nextOf_setNext, ha]
    · show Seg _ (some a) [a] (some a)
      simp [prevOf_setPrev, ha]
    · intro y _ hya
      constructor
      · show nextOf (setPrev (setNext q.heap a none) a (some a)) y = _
        simp [nextOf_setNext, ha, hya]
      · show prevOf (setPrev (setNext q.heap a none) a (some a)) y = _
        simp [prevOf_setPrev, ha, hya]
  | cons x M =>
    obtain ⟨L0, t, hL⟩ : ∃ L0 t, x :: M = L0 ++ [t] :=
      ⟨_, _, (List.dropLast_append_getLast (List.cons_ne_nil x M)).symm⟩
    have hstart : q.start = some x := hn.1
    have hx : x < q.heap.length := hb x (by simp)
    have htL : t ∈ x :: M := by rw [hL]; simp
    have ht : t < q.heap.length := hb t htL
    have hxa : x ≠ a := by
      intro e; apply haL; simp [e]
    have hta : t ≠ a := fun e => haL (e ▸ htL)
    have hNL0 : (L0 ++ [t]).Nodup := hL ▸ hNL
    have hT : (x :: M).getLast? = some t := by rw [hL]; exact List.getLast?_concat _
    rw [hT, List.reverse_cons, Seg_append_cons, Seg_nil] at hpv
    obtain ⟨hpvM, hpvx⟩ := hpv
    rw [hL, hstart, Seg_append_cons, Seg_nil] at hn
    obtain ⟨hnL0, hnt⟩ := hn
    refine ⟨{ q with n := q.n + 1
                     heap := setPrev (setNext (setPrev (setNext q.heap a none) a (some t))
                        t (some a)) x (some a) },
      ?_, ?_, ?_, by simp, by simp, rfl, rfl, rfl, rfl, ?_⟩
    · simp [enqueue_buzzer, hstart, rdId_some, rdPrev_some, wrNext_some, wrPrev_some, ha, hx,
        ht, hpvx, prevOf_setPrev, hxa, ok_bind, pure, Except.pure]
    · have hn1 : ∀ y, nextOf (setPrev (setNext (setPrev (setNext q.heap a none) a (some t))
            t (some a)) x (some a)) y
          = if y = t then some a else if y = a then none else nextOf q.heap y := by
        intro y
        rw [nextOf_setPrev, nextOf_setNext _ _ _ _ (by simpa using ht), nextOf_setPrev,
          nextOf_setNext _ _ _ _ ha]
      show Seg _ q.start (x :: M ++ [a]) none
      rw [hL, hstart]
      simp only [List.append_assoc, List.singleton_append, Seg_append_cons, Seg_cons, Seg_nil,
        true_and, hn1, if_true]
      refine ⟨(Seg_congr ?_ _ _).2 hnL0, by simp [hta.symm]⟩
      intro y hy
      have h1 : y ≠ a := by
        intro e; apply haL; rw [hL, ← e]; simp [hy]
      have h2 : y ≠ t := by
        intro e
        exact (List.nodup_append.1 hNL0).2.2 hy (by simp [e])
      simp [hn1, h1, h2]
    · have hp1 : ∀ y, prevOf (setPrev (setNext (setPrev (setNext q.heap a none) a (some t))
            t (some a)) x (some a)) y
          = if y = x then some a else if y = a then some t else prevOf q.heap y := by
        intro y
        rw [prevOf_setPrev _ _ _ _ (by simpa using hx), prevOf_setNext,
          prevOf_setPrev _ _ _ _ (by simpa using ha), prevOf_setNext]
      show Seg _ (some a) (x :: M ++ [a]).reverse (some a)
      simp only [List.reverse_append, List.reverse_cons, List.reverse_nil, List.nil_append,
        List.singleton_append, Seg_cons, Seg_append_cons, Seg_nil, true_and, hp1, if_true]
      rw [if_neg hxa.symm]
      refine ⟨(Seg_congr ?_ _ _).2 hpvM, trivial⟩
      intro y hy
      have hyM : y ∈ M := List.mem_reverse.1 hy
      have h1 : y ≠ a := by
        intro e; apply haL; rw [← e]; simp [hyM]
      have h2 : y ≠ x := by
        intro e; subst e
        exact (List.nodup_cons.1 hNL).1 hyM
      simp [hp1, h1, h2]
    · intro y hyL hya
      have hyx : y ≠ x := by
        intro e; apply hyL; simp [e]
      have hyt : y ≠ t := fun e => hyL (e ▸ htL)
      constructor
      · show nextOf (setPrev (setNext (setPrev (setNext q.heap a none) a (some t))
            t (some a)) x (some a)) y = _
        rw [nextOf_setPrev, nextOf_setNext _ _ _ _ (by simpa using ht), nextOf_setPrev,
          nextOf_setNext _ _ _ _ ha]
        simp [hyt, hya]
      · show prevOf (setPrev (setNext (setPrev (setNext q.heap a none) a (some t))
            t (some a)) x (some a)) y = _
        rw [prevOf_setPrev _ _ _ _ (by simpa using hx), prevOf_setNext,
          prevOf_setPrev _ _ _ _ (by simpa using ha), prevOf_setNext]
        simp [hyx, hya]

/-! ## `sq_give_buzzer` -/

theorem Rep.give_reuse {q : SQ} {L F : List Nat} {a : Nat} (r : Rep q L (a :: F)) :
    ∃ q1, sq_give_buzzer q = Except.ok (idOf q.heap a, q1) ∧ Rep q1 (L ++ [a]) F ∧
      Frame q q1 ∧ q1.n = q.n + 1 := by
  have ha : a < q.heap.length := r.lt_of_mem_free (by simp)
  have hnd := r.nodup
  have hbucket : q.bucket = some a := r.free_next.1
  have hfn : Seg (nextOf q.heap) (nextOf q.heap a) F none := r.free_next.2
  have haL : a ∉ L := fun h => (List.nodup_append.1 hnd).2.2 h (by simp)
  have haF : a ∉ F := (List.nodup_cons.1 (List.nodup_append.1 hnd).2.1).1
  have hNL : L.Nodup := (List.nodup_append.1 hnd).1
  obtain ⟨q1, h1, h2, h3, h4, h5, h6, h7, h8, h9, h10⟩ :=
    enqueue_ring { q with bucket := nextOf q.heap a } L a r.ring_next r.ring_prev
      (fun y hy => r.lt_of_mem_ring hy) ha haL hNL
  refine ⟨q1, ?_, ?_, ⟨h6, h7, h4, h5⟩, ?_⟩
  · simp only [sq_give_buzzer, hbucket, rdNext_some _ _ ha, ok_bind]
    by_cases hna : nextOf q.heap a = none
    · simp only [hna] at h1
      simpa [hna] using h1
    · simpa [hna] using h1
  · refine Rep.transfer r h6 h7 h4 h5 ?_ h2 ?_ ?_ ?_ ?_
    · rw [h9]; simp [r.len]
    · rw [List.getLast?_concat]; exact h3
    · rw [h8]
      refine (Seg_congr ?_ _ _).2 hfn
      intro y hy
      have hyL : y ∉ L := fun h => (List.nodup_append.1 hnd).2.2 h (by simp [hy])
      have hya : y ≠ a := fun e => haF (e ▸ hy)
      exact (h10 y hyL hya).1
    · intro y hy
      have hyL : y ∉ L := fun h => (List.nodup_append.1 hnd).2.2 h (by simp [hy])
      have hya : y ≠ a := fun e => haF (e ▸ hy)
      rw [(h10 y hyL hya).2]
      exact r.free_prev y (by simp [hy])
    · simp
  · exact h9

theorem mapM_ok {α β : Type} (f : α → Except Fault β) (g : α → β) (l : List α)
    (h : ∀ x ∈ l, f x = Except.ok (g x)) : l.mapM f = Except.ok (l.map g) := by
  induction l with
  | nil => rfl
  | cons x l ih =>
    have h1 := h x (by simp)
    have h2 := ih (fun y hy => h y (by simp [hy]))
    rw [List.mapM_cons, h1, h2]
    rfl

theorem grow_overflow (q : SQ) (h : 2147483647 < q.total * 2) :
    grow_buzzers q = Except.error Fault.overflow := by
  unfold grow_buzzers
  rw [if_pos (Or.inr (by simpa [INT_MAX] using h))]

theorem grow_spec (q : SQ) (hlen : (q.buzzer.length : Int) = q.total)
    (hfit : q.total * 2 ≤ 2147483647) :
    ∃ tab, grow_buzzers q = Except.ok { q with buzzer := tab, total := q.total * 2 } ∧
      tab.length = 2 * q.buzzer.length ∧ ∀ i, tab.getD i none = q.buzzer.getD i none := by
  refine ⟨(List.range (q.total * 2).toNat).map (fun i => q.buzzer.getD i none), ?_, ?_, ?_⟩
  · unfold grow_buzzers
    have hno : ¬ (q.total * 2 < INT_MIN ∨ INT_MAX < q.total * 2) := by
      simp only [INT_MIN, INT_MAX]
      omega
    rw [if_neg hno]
    dsimp only
    rw [mapM_ok _ (fun i => q.buzzer.getD i none)]
    · rfl
    · intro i _
      by_cases hi : (i : Int) < q.total
      · have hi2 : i < q.buzzer.length := by omega
        have hget : q.buzzer[i]? = some q.buzzer[i] := List.getElem?_eq_getElem hi2
        simp [hi, rdTab, hget, List.getD_eq_getElem?_getD]
      · have hi2 : q.buzzer.length ≤ i := by omega
        simp [hi, List.getD_eq_getElem?_getD, List.getElem?_eq_none hi2, pure, Except.pure]
  · simp; omega
  · intro i
    by_cases hi : i < (q.total * 2).toNat
    · simp [List.getD_eq_getElem?_getD, List.getElem?_range hi, hi]
    · have h1 : q.buzzer.length ≤ i := by omega
      have h2 : (List.range (q.total * 2).toNat)[i]? = none :=
        List.getElem?_eq_none (by simpa using hi)
      simp [List.getD_eq_getElem?_getD, h2, List.getElem?_eq_none h1]

theorem Rep.give_fresh {q : SQ} {L : List Nat} (r : Rep q L [])
    (hfit : q.n < q.total ∨ q.total * 2 ≤ 2147483647) :
    ∃ q1, sq_give_buzzer q = Except.ok (q.n, q1) ∧ Rep q1 (L ++ [q.heap.length]) [] ∧
      q1.n = q.n + 1 ∧ q1.heap.length = q.heap.length + 1 ∧
      idOf q1.heap q.heap.length = q.n ∧
      (∀ b, b < q.heap.length → idOf q1.heap b = idOf q.heap b) ∧
      (∀ i, i ≠ q.n.toNat → q1.buzzer.getD i none = q.buzzer.getD i none) ∧
      q1.total = (if q.n ≥ q.total then q.total * 2 else q.total) := by
  have hbucket : q.bucket = none := by simpa using r.free_next
  have hN : L.length = q.heap.length := by simpa using r.slots_length
  have hn : q.n = q.heap.length := by rw [r.len, hN]
  have hnd := r.nodup
  have hNL : L.Nodup := (List.nodup_append.1 hnd).1
  have hb : ∀ y ∈ L, y < q.heap.length := fun y hy => r.lt_of_mem_ring hy
  have hcap := r.cap
  have hpos := r.total_pos
  have htl := r.tab_len
  obtain ⟨tab0, total0, hq0, hlen0, hget0, hlt0, htot0⟩ :
      ∃ tab0 total0,
        (∀ (k : SQ → Except Fault (Int × SQ)),
          (if q.n ≥ q.total then grow_buzzers q >>= k else pure q >>= k)
            = k { q with buzzer := tab0, total := total0 }) ∧
        (tab0.length : Int) = total0 ∧ (∀ i, tab0.getD i none = q.buzzer.getD i none) ∧
        q.n < total0 ∧ total0 = (if q.n ≥ q.total then q.total * 2 else q.total) := by
    by_cases hge : q.n ≥ q.total
    · have hfit2 : q.total * 2 ≤ 2147483647 := by
        rcases hfit with h | h
        · omega
        · exact h
      obtain ⟨tab, h1, h2, h3⟩ := grow_spec q htl hfit2
      refine ⟨tab, q.total * 2, ?_, ?_, h3, ?_, by rw [if_pos hge]⟩
      · intro k; rw [if_pos hge, h1]; rfl
      · rw [h2]; push_cast; omega
      · omega
    · refine ⟨q.buzzer, q.total, ?_, htl, fun _ => rfl, by omega, by rw [if_neg hge]⟩
      intro k; rw [if_neg hge]; rfl
  let nd : NODE := { id := q.n, next := none, prev := none }
  have hnatn : q.n.toNat = q.heap.length := by omega
  have hwr : wrTab tab0 q.n (some q.heap.length)
      = Except.ok (tab0.set q.heap.length (some q.heap.length)) := by
    have h1 : ¬ q.n < 0 := by omega
    have h2 : q.heap.length < tab0.length := by omega
    simp [wrTab, h1, hnatn, h2]
  have haL : q.heap.length ∉ L := fun h => Nat.lt_irrefl _ (hb _ h)
  obtain ⟨q1, h1, h2, h3, h4, h5, h6, h7, h8, h9, -⟩ :=
    enqueue_ring { q with buzzer := tab0.set q.heap.length (some q.heap.length),
                          total := total0, heap := q.heap ++ [nd] } L q.heap.length
      (by
        refine (Seg_congr ?_ _ _).2 r.ring_next
        intro y hy
        show nextOf (q.heap ++ [nd]) y = _
        rw [nextOf_append, if_neg (Nat.ne_of_lt (hb y hy))])
      (by
        refine (Seg_congr ?_ _ _).2 r.ring_prev
        intro y hy
        have hyL : y ∈ L := List.mem_reverse.1 hy
        show prevOf (q.heap ++ [nd]) y = _
        rw [prevOf_append, if_neg (Nat.ne_of_lt (hb y hyL))])
      (by
        intro y hy
        have := hb y hy
        show y < (q.heap ++ [nd]).length
        simp; omega)
      (by show q.heap.length < (q.heap ++ [nd]).length; simp)
      haL hNL
  have hid : ∀ b, idOf q1.heap b = if b = q.heap.length then q.n else idOf q.heap b := by
    intro b
    rw [h5]
    show idOf (q.heap ++ [nd]) b = _
    rw [idOf_append]
  have hlen1 : q1.heap.length = q.heap.length + 1 := by
    rw [h4]; show (q.heap ++ [nd]).length = _; simp
  have hbuz : q1.buzzer = tab0.set q.heap.length (some q.heap.length) := h6
  have hgetD : ∀ i, q1.buzzer.getD i none
      = if i = q.heap.length then some q.heap.length else q.buzzer.getD i none := by
    intro i
    rw [hbuz, ← hget0 i]
    have h2 : q.heap.length < tab0.length := by omega
    by_cases hi : i = q.heap.length
    · subst hi
      simp [List.getD_eq_getElem?_getD, List.getElem?_set, h2]
    · have : q.heap.length ≠ i := fun e => hi e.symm
      simp [List.getD_eq_getElem?_getD, List.getElem?_set, this, hi]
  refine ⟨q1, ?_, ?_, h9, hlen1, ?_, ?_, ?_, ?_⟩
  · have hret : idOf (q.heap ++ [nd]) q.heap.length = q.n := by
      rw [idOf_append, if_pos rfl]
    rw [← hret]
    rw [← h1]
    unfold sq_give_buzzer
    rw [if_neg (by rw [hbucket]; simp), hq0]
    simp only []
    rw [hwr, ok_bind]
  · refine
      { len := ?_, tab_len := ?_, total_pos := ?_, cap := ?_, ring_next := h2,
        ring_prev := ?_, free_next := ?_, free_prev := ?_, slots := ?_, ids := ?_,
        tab := ?_ }
    · rw [h9]; show q.n + 1 = _; simp [r.len]
    · rw [hbuz, h7]; simpa using hlen0
    · rw [h7]; show 0 < total0; omega
    · rw [hlen1, h7]; show _ ≤ total0; push_cast; omega
    · rw [List.getLast?_concat]; exact h3
    · rw [h8]; exact hbucket ▸ rfl
    · intro a ha; simp at ha
    · rw [hlen1, List.range_succ, List.append_nil]
      have : L.Perm (List.range q.heap.length) := by simpa using r.slots
      exact this.append_right _
    · intro a ha
      rw [hlen1] at ha
      rw [hid, hlen1, hgetD]
      by_cases hae : a = q.heap.length
      · subst hae
        simp [hnatn]; omega
      · have ha2 : a < q.heap.length := by omega
        obtain ⟨i1, i2, i3⟩ := r.ids a ha2
        rw [if_neg hae]
        have : (idOf q.heap a).toNat ≠ q.heap.length := by omega
        rw [if_neg this]
        exact ⟨i1, by omega, i3⟩
    · intro i hi a ha
      rw [hgetD] at ha
      rw [hid, hlen1]
      by_cases hie : i = q.heap.length
      · rw [if_pos hie] at ha
        have : a = q.heap.length := by simpa using ha.symm
        subst this
        simp [hie, hn]
      · rw [if_neg hie] at ha
        have ha2 : q.buzzer.getD i none = some a := ha
        obtain ⟨t1, t2⟩ := r.tab_spec (getD_eq_some.1 ha2)
        rw [if_neg (Nat.ne_of_lt t1)]
        exact ⟨by omega, t2⟩
  · rw [hid, if_pos rfl]
  · intro b hb2
    rw [hid, if_neg (Nat.ne_of_lt hb2)]
  · intro i hi
    rw [hgetD, if_neg (by omega)]
  · rw [h7]; exact htot0
open Op

/-! ## From the representation to what `sq_display` shows -/

theorem rep_create : Rep sq_create [] [] := by
  constructor <;> decide

theorem map_erase_on {α β : Type} [DecidableEq α] [DecidableEq β] (f : α → β)
    (L : List α) (a : α) (hinj : ∀ x ∈ L, f x = f a → x = a) :
    (L.erase a).map f = (L.map f).erase (f a) := by
  induction L with
  | nil => rfl
  | cons x L ih =>
    by_cases hx : x = a
    · subst hx; simp
    · have hfx : f x ≠ f a := fun e => hx (hinj x (by simp) e)
      have ih2 := ih (fun y hy => hinj y (by simp [hy]))
      rw [List.erase_cons_tail (by simpa using hx), List.map_cons, List.map_cons,
        List.erase_cons_tail (by simpa using hfx), ih2]

theorem Rep.display_erase {q : SQ} {L F : List Nat} (r : Rep q L F) {a : Nat} (ha : a ∈ L) :
    (L.erase a).map (idOf q.heap) = (L.map (idOf q.heap)).erase (idOf q.heap a) :=
  map_erase_on _ _ _ (fun _ hx e => r.id_inj (r.lt_of_mem_ring hx) (r.lt_of_mem_ring ha) e)

theorem Rep.of_display {q : SQ} {L F : List Nat} (r : Rep q L F) {d : List Int}
    (hd : sq_display q = some d) : d = L.map (idOf q.heap) := by
  rw [r.display] at hd
  exact (Option.some.inj hd).symm

theorem Rep.slot_of_shown {q : SQ} {L F : List Nat} (r : Rep q L F) {d : List Int}
    (hd : sq_display q = some d) {t : Int} (ht : t ∈ d) :
    ∃ a, a ∈ L ∧ idOf q.heap a = t := by
  rw [r.of_display hd] at ht
  obtain ⟨a, ha, hat⟩ := List.mem_map.1 ht
  exact ⟨a, ha, hat⟩

theorem node_eq_of_fields {h h1 : List NODE} {a : Nat} (hl : h1.length = h.length)
    (hi : idOf h1 a = idOf h a) (hn : nextOf h1 a = nextOf h a)
    (hp : prevOf h1 a = prevOf h a) : h1[a]? = h[a]? := by
  by_cases ha : a < h.length
  · have ha1 : a < h1.length := by omega
    have e1 : h1[a]? = some h1[a] := List.getElem?_eq_getElem ha1
    have e : h[a]? = some h[a] := List.getElem?_eq_getElem ha
    simp only [idOf, nextOf, prevOf, e1, e] at hi hn hp
    rw [e1, e]
    congr 1
    cases hx : h1[a]
    cases hy : h[a]
    simp_all
  · rw [List.getElem?_eq_none (by omega), List.getElem?_eq_none (by omega)]

theorem Rep.free_of_prev_none {q : SQ} {L F : List Nat} (r : Rep q L F) {a : Nat}
    (ha : a < q.heap.length) (hp : prevOf q.heap a = none) : a ∈ F := by
  rcases List.mem_append.1 ((r.mem_iff a).2 ha) with h | h
  · exact absurd hp (r.prev_ne_none h)
  · exact h
open Op

theorem Rep.start_eq {q : SQ} {L F : List Nat} (r : Rep q L F) : q.start = L.head? := by
  have h := r.ring_next
  cases L with
  | nil => simpa using h
  | cons x L => exact h.1

theorem Rep.bucket_eq {q : SQ} {L F : List Nat} (r : Rep q L F) : q.bucket = F.head? := by
  have h := r.free_next
  cases F with
  | nil => simpa using h
  | cons x F => exact h.1
open Op

/-- One call of `sq_give_buzzer` on a queue that satisfies the invariant, in
terms of the ring `L` and the free stack `F`, when the call does not have to
double a capacity whose double leaves the range of `int`. -/
theorem Rep.give {q : SQ} {L F : List Nat} (r : Rep q L F)
    (hfit : q.bucket ≠ none ∨ q.n < q.total ∨ q.total * 2 ≤ 2147483647) :
    ∃ t q1 a, sq_give_buzzer q = Except.ok (t, q1) ∧ Rep q1 (L ++ [a]) F.tail ∧
      0 ≤ t ∧ t ∉ L.map (idOf q.heap) ∧
      (L ++ [a]).map (idOf q1.heap) = L.map (idOf q.heap) ++ [t] ∧
      F.tail.map (idOf q1.heap) = F.tail.map (idOf q.heap) ∧
      q1.n = q.n + 1 := by
  cases F with
  | nil =>
    have hbucket : q.bucket = none := r.bucket_eq
    have hfit2 : q.n < q.total ∨ q.total * 2 ≤ 2147483647 := by
      rcases hfit with h | h
      · exact absurd hbucket h
      · exact h
    obtain ⟨q1, h1, h2, h3, h4, h5, h6, -, -⟩ := r.give_fresh hfit2
    have hN : L.length = q.heap.length := by simpa using r.slots_length
    have hn : q.n = q.heap.length := by rw [r.len, hN]
    refine ⟨q.n, q1, q.heap.length, h1, h2, by omega, ?_, ?_, rfl, h3⟩
    · intro hmem
      obtain ⟨b, hb, hbe⟩ := List.mem_map.1 hmem
      have := (r.ids b (r.lt_of_mem_ring hb)).2.1
      omega
    · rw [List.map_append, List.map_cons, List.map_nil, h5]
      congr 1
      exact List.map_congr_left (fun b hb => h6 b (r.lt_of_mem_ring hb))
  | cons a F =>
    obtain ⟨q1, h1, h2, ⟨-, -, -, f4⟩, h4⟩ := r.give_reuse
    have ha : a < q.heap.length := r.lt_of_mem_free (by simp)
    have haL : a ∉ L := fun h => (List.nodup_append.1 r.nodup).2.2 h (by simp)
    have hids : ∀ M : List Nat, M.map (idOf q1.heap) = M.map (idOf q.heap) := by
      intro M; exact List.map_congr_left (fun b _ => f4 b)
    refine ⟨idOf q.heap a, q1, a, h1, h2, (r.ids a ha).1, ?_, ?_, hids _, h4⟩
    · rw [r.mem_display ha]; exact haL
    · rw [hids]; simp

/-- One call of `sq_seat` on a queue that satisfies the invariant and whose
ring is not empty. -/
theorem Rep.seat_display {q : SQ} {a : Nat} {L F : List Nat} (r : Rep q (a :: L) F) :
    ∃ q1, sq_seat q = Except.ok (idOf q.heap a, q1) ∧ Rep q1 L (a :: F) ∧
      (∀ M : List Nat, M.map (idOf q1.heap) = M.map (idOf q.heap)) ∧
      Frame q q1 ∧ q1.n = q.n - 1 := by
  obtain ⟨q1, h1, h2, hf, h4⟩ := r.seat
  exact ⟨q1, h1, h2, fun M => List.map_congr_left (fun b _ => hf.2.2.2 b), hf, h4⟩

/-- On a queue whose free stack is empty and whose table is full with a
capacity above 1073741823, `sq_give_buzzer` has no result: the doubling in
`grow_buzzers` overflows. -/
theorem give_overflow (q : SQ)
    (hb : q.bucket = none) (hn : q.total ≤ q.n) (hbig : 2147483647 < q.total * 2) :
    sq_give_buzzer q = Except.error Fault.overflow := by
  unfold sq_give_buzzer
  rw [if_neg (by rw [hb]; simp), if_pos (ge_iff_le.2 hn), grow_overflow q hbig]
  rfl

/-- A call of `sq_give_buzzer` that returned, on a queue that satisfies the
invariant. -/
theorem Rep.give_of_ok {q q1 : SQ} {L F : List Nat} (r : Rep q L F) {t : Int}
    (h : sq_give_buzzer q = Except.ok (t, q1)) :
    ∃ a, Rep q1 (L ++ [a]) F.tail ∧
      0 ≤ t ∧ t ∉ L.map (idOf q.heap) ∧
      (L ++ [a]).map (idOf q1.heap) = L.map (idOf q.heap) ++ [t] ∧
      F.tail.map (idOf q1.heap) = F.tail.map (idOf q.heap) ∧
      q1.n = q.n + 1 := by
  by_cases hfit : q.bucket ≠ none ∨ q.n < q.total ∨ q.total * 2 ≤ 2147483647
  · obtain ⟨t2, q2, a, h1, h2⟩ := r.give hfit
    rw [h] at h1
    have h3 := Prod.mk.inj (Except.ok.inj h1)
    rw [← h3.1, ← h3.2] at h2
    exact ⟨a, h2⟩
  · exfalso
    have hb : q.bucket = none := by
      by_contra hne
      exact hfit (Or.inl hne)
    have h1 : q.total ≤ q.n := by
      by_contra hlt
      exact hfit (Or.inr (Or.inl (by omega)))
    have h2 : 2147483647 < q.total * 2 := by
      by_contra hle
      exact hfit (Or.inr (Or.inr (by omega)))
    rw [give_overflow q hb h1 h2] at h
    cases h

theorem not_in_queue_neg (q : SQ) (t : Int) (ht : t < 0) (hpos : 0 < q.total) :
    not_in_queue q t = Except.error Fault.outOfBounds := by
  have h1 : ¬ t ≥ q.total := by omega
  simp [not_in_queue, h1, rdTab, ht]
  rfl

/-- A call of `sq_kick_out` that returned 1 removed a slot of the ring. -/
theorem Rep.kick_out_inv {q q1 : SQ} {L F : List Nat} (r : Rep q L F) {t : Int}
    (h : sq_kick_out q t = Except.ok (1, q1)) :
    ∃ a, a ∈ L ∧ idOf q.heap a = t ∧ Rep q1 (L.erase a) (a :: F) ∧ Frame q q1 ∧
      q1.n = q.n - 1 := by
  by_cases hmem : t ∈ L.map (idOf q.heap)
  · obtain ⟨a, ha, hat⟩ := List.mem_map.1 hmem
    obtain ⟨q2, h1, h2, h3, h4⟩ := r.kick_out ha
    rw [hat, h] at h1
    have : q1 = q2 := by
      have := Except.ok.inj h1
      exact (Prod.mk.inj this).2
    subst this
    exact ⟨a, ha, hat, h2, h3, h4⟩
  · exfalso
    by_cases h0 : 0 ≤ t
    · have habs := r.absent h0 hmem
      simp [sq_kick_out, habs, ok_bind, pure, Except.pure] at h
    · have hneg := not_in_queue_neg q t (by omega) r.total_pos
      simp [sq_kick_out, hneg, error_bind] at h

theorem Rep.erase_not_shown {q1 q : SQ} {L F : List Nat} {a : Nat} (r : Rep q L F)
    (hid : ∀ b, idOf q1.heap b = idOf q.heap b) (ha : a ∈ L) :
    idOf q.heap a ∉ (L.erase a).map (idOf q1.heap) := by
  intro hmem
  obtain ⟨b, hb, hbe⟩ := List.mem_map.1 hmem
  rw [hid] at hbe
  have hbL := List.mem_of_mem_erase hb
  have := r.id_inj (r.lt_of_mem_ring hbL) (r.lt_of_mem_ring ha) hbe
  subst this
  have hNL : L.Nodup := (List.nodup_append.1 r.nodup).1
  exact (List.Nodup.mem_erase_iff hNL).1 hb |>.1 rfl

/-- An id that the queue does not show is rejected by both operations. -/
theorem Rep.rejects {q : SQ} {L F : List Nat} (r : Rep q L F) {t : Int} (h0 : 0 ≤ t)
    (ht : t ∉ L.map (idOf q.heap)) :
    sq_kick_out q t = Except.ok (0, q) ∧ sq_take_bribe q t = Except.ok (0, q) := by
  have habs := r.absent h0 ht
  constructor
  · simp [sq_kick_out, habs, ok_bind, pure, Except.pure]
  · simp [sq_take_bribe, habs, ok_bind, pure, Except.pure]

/-- A call of `sq_seat` on a non-empty ring. -/
theorem Rep.seat_inv {q q1 : SQ} {L F : List Nat} (r : Rep q L F) {t : Int}
    (hne : q.start ≠ none) (h : sq_seat q = Except.ok (t, q1)) :
    ∃ a M, L = a :: M ∧ idOf q.heap a = t ∧ Rep q1 M (a :: F) ∧ Frame q q1 ∧
      q1.n = q.n - 1 := by
  cases L with
  | nil => exact absurd r.start_eq hne
  | cons a M =>
    obtain ⟨q2, h1, h2, h3, h4⟩ := r.seat
    rw [h] at h1
    have h5 := Prod.mk.inj (Except.ok.inj h1)
    have : q1 = q2 := h5.2
    subst this
    exact ⟨a, M, rfl, h5.1.symm, h2, h3, h4⟩

/-! ## Sequences of calls -/

theorem run_cons_ok {q q1 q2 : SQ} {op : Op} {ops : List Op} {t : Int} {ts : List Int}
    (h1 : step q op = Except.ok (t, q1)) (h2 : run q1 ops = Except.ok (ts, q2)) :
    run q (op :: ops) = Except.ok (t :: ts, q2) := by
  simp [run, h1, h2]

theorem run_cons_inv {q q2 : SQ} {op : Op} {ops : List Op} {ts : List Int}
    (h : run q (op :: ops) = Except.ok (ts, q2)) :
    ∃ t q1 ts1, step q op = Except.ok (t, q1) ∧ run q1 ops = Except.ok (ts1, q2) ∧
      ts = t :: ts1 := by
  unfold run at h
  cases hs : step q op with
  | error e => rw [hs] at h; cases h
  | ok v =>
    obtain ⟨t, q1⟩ := v
    rw [hs] at h
    cases hr : run q1 ops with
    | error e => simp only [hr] at h; cases h
    | ok w =>
      obtain ⟨ts1, q3⟩ := w
      simp only [hr] at h
      have h2 := Prod.mk.inj (Except.ok.inj h)
      exact ⟨t, q1, ts1, rfl, by rw [hr, h2.2], h2.1.symm⟩

theorem run_cons_error {q : SQ} {op : Op} {ops : List Op} {e : Fault}
    (h : step q op = Except.error e) : run q (op :: ops) = Except.error e := by
  simp [run, h]

theorem run_cons_ok_error {q q1 : SQ} {op : Op} {ops : List Op} {t : Int} {e : Fault}
    (h1 : step q op = Except.ok (t, q1)) (h2 : run q1 ops = Except.error e) :
    run q (op :: ops) = Except.error e := by
  simp [run, h1, h2]

/-- The calls of `sq_give_buzzer` that returned, on a queue that satisfies
the invariant. -/
theorem Rep.give_run_of_ok {q q1 : SQ} {L F : List Nat} (r : Rep q L F) (k : Nat)
    {ts : List Int} (h : run q (List.replicate k Op.give) = Except.ok (ts, q1)) :
    ∃ L1 F1, Rep q1 L1 F1 ∧
      L1.map (idOf q1.heap) = L.map (idOf q.heap) ++ ts ∧ ts.length = k := by
  induction k generalizing q L F ts with
  | zero =>
    have h2 := Prod.mk.inj (Except.ok.inj h)
    rw [← h2.1, ← h2.2]
    exact ⟨L, F, r, by simp, rfl⟩
  | succ k ih =>
    rw [List.replicate_succ] at h
    obtain ⟨t, q2, ts1, g1, g2, g3⟩ := run_cons_inv h
    obtain ⟨a, h2, -, -, h5, -, -⟩ := r.give_of_ok g1
    obtain ⟨L1, F1, i1, i2, i3⟩ := ih h2 g2
    refine ⟨L1, F1, i1, ?_, by rw [g3]; simp [i3]⟩
    rw [i2, h5, g3]; simp

/-- The calls of `sq_give_buzzer` return as long as the count stays so small
that no doubling leaves the range of `int`. -/
theorem Rep.give_run {q : SQ} {L F : List Nat} (r : Rep q L F) (k : Nat)
    (hk : q.n + k ≤ 1073741824) :
    ∃ ts q1, run q (List.replicate k Op.give) = Except.ok (ts, q1) := by
  induction k generalizing q L F with
  | zero => exact ⟨[], q, rfl⟩
  | succ k ih =>
    have hfit : q.bucket ≠ none ∨ q.n < q.total ∨ q.total * 2 ≤ 2147483647 := by
      by_cases hlt : q.n < q.total
      · exact Or.inr (Or.inl hlt)
      · refine Or.inr (Or.inr ?_)
        push_cast at hk
        omega
    obtain ⟨t, q1, a, h1, h2, -, -, -, -, h7⟩ := r.give hfit
    obtain ⟨ts, q2, g1⟩ := ih h2 (by rw [h7]; push_cast at hk ⊢; omega)
    exact ⟨t :: ts, q2, by rw [List.replicate_succ]; exact run_cons_ok h1 g1⟩

theorem Rep.seat_run {q : SQ} {L F : List Nat} (r : Rep q L F) :
    ∃ q1, run q (List.replicate L.length Op.seat) = Except.ok (L.map (idOf q.heap), q1) ∧
      Rep q1 [] (L.reverse ++ F) := by
  induction L generalizing q F with
  | nil => exact ⟨q, rfl, by simpa using r⟩
  | cons a M ih =>
    obtain ⟨q1, h1, h2, hids, -, -⟩ := r.seat_display
    obtain ⟨q2, g1, g2⟩ := ih h2
    refine ⟨q2, ?_, by simpa using g2⟩
    rw [List.length_cons, List.replicate_succ, List.map_cons, ← hids]
    exact run_cons_ok h1 g1

theorem Rep.seat_empty {q : SQ} {F : List Nat} (r : Rep q [] F) :
    sq_seat q = Except.ok (-1, q) := by
  have : q.start = none := r.start_eq
  simp [sq_seat, this, pure, Except.pure]

theorem pow_two_le_of_le {j : Nat} (hj : j ≤ 27) : 2 ^ j ≤ 134217728 :=
  calc 2 ^ j ≤ 2 ^ 27 := Nat.pow_le_pow_right (by decide) hj
    _ = 134217728 := by norm_num

/-- One call of `sq_give_buzzer` on the queue that `m` calls on a fresh queue
have built, while `m` is below 1342177280: the capacity is 10 times a power
of two up to the 27th. -/
theorem fresh_step {q : SQ} {m : Nat} (r : Rep q (List.range m) [])
    (hid : ∀ i, i < m → idOf q.heap i = i)
    (hcap : ∃ j : Nat, j ≤ 27 ∧ q.total = ((10 * 2 ^ j : Nat) : Int))
    (hm : m < 1342177280) :
    ∃ q1, sq_give_buzzer q = Except.ok ((m : Int), q1) ∧ Rep q1 (List.range (m + 1)) [] ∧
      (∀ i, i < m + 1 → idOf q1.heap i = i) ∧
      ∃ j : Nat, j ≤ 27 ∧ q1.total = ((10 * 2 ^ j : Nat) : Int) := by
  have hN : q.heap.length = m := by
    have := r.slots_length; simpa using this.symm
  have hn : q.n = m := by rw [r.len]; simp
  obtain ⟨j, hj, htot⟩ := hcap
  have hp := pow_two_le_of_le hj
  have hgrow : q.total ≤ q.n → j + 1 ≤ 27 ∧ q.total * 2 ≤ 2147483647 := by
    intro hle
    have hj2 : j + 1 ≤ 27 := by
      by_contra hc
      have hj27 : j = 27 := by omega
      rw [hj27] at htot
      norm_num at htot
      omega
    have hp2 := pow_two_le_of_le hj2
    rw [Nat.pow_succ] at hp2
    refine ⟨hj2, ?_⟩
    rw [htot]
    push_cast
    have : ((2 ^ j : Nat) : Int) * 2 ≤ 134217728 := by exact_mod_cast hp2
    push_cast at this
    omega
  have hfit : q.n < q.total ∨ q.total * 2 ≤ 2147483647 := by
    by_cases hlt : q.n < q.total
    · exact Or.inl hlt
    · exact Or.inr (hgrow (by omega)).2
  obtain ⟨q1, h1, h2, -, -, h5, h6, -, h8⟩ := r.give_fresh hfit
  rw [hN] at h2 h5 h6
  refine ⟨q1, hn ▸ h1, by rw [List.range_succ]; exact h2, ?_, ?_⟩
  · intro i hi
    by_cases him : i = m
    · rw [him, h5, hn]
    · have : i < m := by omega
      rw [h6 i this, hid i this]
  · by_cases hge : q.n ≥ q.total
    · rw [if_pos hge] at h8
      refine ⟨j + 1, (hgrow hge).1, ?_⟩
      rw [h8, htot, Nat.pow_succ]
      push_cast
      ring
    · rw [if_neg hge] at h8
      exact ⟨j, hj, by rw [h8, htot]⟩

/-- After 1342177280 calls on a fresh queue the table is full with capacity
1342177280, and the next call of `sq_give_buzzer` has no result. -/
theorem fresh_full {q : SQ} {m : Nat} (r : Rep q (List.range m) [])
    (hcap : ∃ j : Nat, j ≤ 27 ∧ q.total = ((10 * 2 ^ j : Nat) : Int))
    (hm : m = 1342177280) :
    q.n = 1342177280 ∧ q.total = 1342177280 ∧
      sq_give_buzzer q = Except.error Fault.overflow := by
  have hN : q.heap.length = m := by
    have := r.slots_length; simpa using this.symm
  have hn : q.n = m := by rw [r.len]; simp
  obtain ⟨j, hj, htot⟩ := hcap
  have hp := pow_two_le_of_le hj
  have hc := r.cap
  have hpz : ((2 ^ j : Nat) : Int) ≤ 134217728 := by exact_mod_cast hp
  have ht : q.total = 1342177280 := by
    rw [htot] at hc ⊢
    push_cast at hc hpz ⊢
    omega
  exact ⟨by omega, ht, give_overflow q r.bucket_eq (by omega) (by omega)⟩

theorem fresh_run {q : SQ} {m : Nat} (r : Rep q (List.range m) [])
    (hid : ∀ i, i < m → idOf q.heap i = i)
    (hcap : ∃ j : Nat, j ≤ 27 ∧ q.total = ((10 * 2 ^ j : Nat) : Int))
    (k : Nat) (hk : m + k ≤ 1342177280) :
    ∃ q1, run q (List.replicate k Op.give)
        = Except.ok ((List.range' m k).map Int.ofNat, q1) ∧
      Rep q1 (List.range (m + k)) [] ∧ (∀ i, i < m + k → idOf q1.heap i = i) ∧
      ∃ j : Nat, j ≤ 27 ∧ q1.total = ((10 * 2 ^ j : Nat) : Int) := by
  induction k generalizing q m with
  | zero => exact ⟨q, rfl, r, hid, hcap⟩
  | succ k ih =>
    obtain ⟨q1, h1, h2, h3, h4⟩ := fresh_step r hid hcap (by omega)
    obtain ⟨q2, g1, g2, g3, g4⟩ := ih h2 h3 h4 (by omega)
    have e : m + 1 + k = m + (k + 1) := by omega
    rw [e] at g2 g3
    refine ⟨q2, ?_, g2, g3, g4⟩
    rw [List.replicate_succ, List.range'_succ, List.map_cons]
    exact run_cons_ok h1 g1

theorem fresh_run_overflow {q : SQ} {m : Nat} (r : Rep q (List.range m) [])
    (hid : ∀ i, i < m → idOf q.heap i = i)
    (hcap : ∃ j : Nat, j ≤ 27 ∧ q.total = ((10 * 2 ^ j : Nat) : Int))
    (d : Nat) (hd : m + d = 1342177280) :
    run q (List.replicate (d + 1) Op.give) = Except.error Fault.overflow := by
  induction d generalizing q m with
  | zero =>
    have hm : m = 1342177280 := by omega
    exact run_cons_error (fresh_full r hcap hm).2.2
  | succ d ih =>
    obtain ⟨q1, h1, h2, h3, h4⟩ := fresh_step r hid hcap (by omega)
    rw [List.replicate_succ]
    exact run_cons_ok_error h1 (ih h2 h3 h4 (by omega))

theorem create_cap : ∃ j : Nat, j ≤ 27 ∧ sq_create.total = ((10 * 2 ^ j : Nat) : Int) :=
  ⟨0, by decide, rfl⟩

/-! ## The example queues -/

theorem queue_three_run :
    run sq_create [Op.give, Op.give, Op.give] = Except.ok ([0, 1, 2], queue_three) := rfl

theorem queue_seated_run :
    run sq_create [Op.give, Op.give, Op.give, Op.seat]
      = Except.ok ([0, 1, 2, 0], queue_seated) := rfl

theorem inv_queue_three : Inv queue_three :=
  ⟨[0, 1, 2], [], by constructor <;> decide⟩

theorem inv_queue_seated : Inv queue_seated :=
  ⟨[1, 2], [0], by constructor <;> decide⟩

/-! ## The claims -/

/-- C1: the property that `sq_kick_out` removes a shown id from every
reachable queue fails after `sq_take_bribe` has moved an interior slot to the
front.  After three calls of `sq_give_buzzer` and `sq_take_bribe 1` the queue
shows 1 0 2; `sq_kick_out 0` then returns 1 and `sq_length` becomes 2, but
`sq_display` shows 1 0 (the id removed is still shown and 2 is lost) where
the claim requires 1 2. -/
theorem kick_out_after_bribe_keeps_evicted :
    ∃ q q1, Reachable q ∧ sq_display q = some [1, 0, 2] ∧
      sq_kick_out q 0 = Except.ok (1, q1) ∧
      sq_display q1 = some [1, 0] ∧ ([1, 0, 2] : List Int).erase 0 = [1, 2] ∧
      sq_length q1 = 2 :=
  ⟨_, _, ⟨[Op.give, Op.give, Op.give, Op.bribe 1], [0, 1, 2, 1], rfl⟩, by decide, rfl,
    by decide, by decide, by decide⟩

/-- C2: on a queue that satisfies the invariants, `sq_take_bribe` called with
an id `t` that `sq_display` shows returns 1; afterwards `sq_display` shows
`t` followed by the previous sequence with `t` removed, while `sq_length`,
the capacity, the table and the free stack (its top, the ids it holds and
every slot on it) are unchanged. -/
theorem take_bribe_moves_to_front (q : SQ) (d : List Int) (t : Int) (hinv : Inv q)
    (hd : sq_display q = some d) (ht : t ∈ d) :
    ∃ q1, sq_take_bribe q t = Except.ok (1, q1) ∧
      sq_display q1 = some (t :: d.erase t) ∧
      sq_length q1 = sq_length q ∧ q1.total = q.total ∧ q1.buzzer = q.buzzer ∧
      q1.bucket = q.bucket ∧ free_stack q1 = free_stack q ∧
      ∀ a, prevOf q.heap a = none → q1.heap[a]? = q.heap[a]? := by
  obtain ⟨L, F, r⟩ := hinv
  obtain ⟨a, ha, hat⟩ := r.slot_of_shown hd ht
  obtain ⟨q1, h1, h2, ⟨f1, f2, f3, f4⟩, h4, h5, h6, -⟩ := r.take_bribe ha
  have hids : ∀ M : List Nat, M.map (idOf q1.heap) = M.map (idOf q.heap) := by
    intro M; exact List.map_congr_left (fun b _ => f4 b)
  have hlenL := r.slots_length
  refine ⟨q1, hat ▸ h1, ?_, h4, f2, f1, h5, ?_, ?_⟩
  · have hw := walk_of_seg q1.heap (a :: L.erase a) (q1.heap.length + 1) q1.start h2
      (by
        intro y hy
        rw [f3]
        rcases List.mem_cons.1 hy with e | hy
        · exact e ▸ r.lt_of_mem_ring ha
        · exact r.lt_of_mem_ring (List.mem_of_mem_erase hy))
      (by
        have : (L.erase a).length ≤ L.length := List.length_erase_le a L
        simp only [List.length_cons]
        omega)
    unfold sq_display
    rw [hw, hids, List.map_cons, r.display_erase ha, hat, ← r.of_display hd]
  · have hw := walk_of_seg q1.heap F (q1.heap.length + 1) q1.bucket
      (by
        rw [h5]
        refine (Seg_congr ?_ _ _).2 r.free_next
        intro y hy
        exact (h6 y hy).1)
      (by intro y hy; rw [f3]; exact r.lt_of_mem_free hy)
      (by omega)
    unfold free_stack at hw ⊢
    rw [hw, hids]
    exact r.free_stack.symm
  · intro b hb
    by_cases hlt : b < q.heap.length
    · have hbF := r.free_of_prev_none hlt hb
      exact node_eq_of_fields f3 (f4 b) (h6 b hbF).1 (h6 b hbF).2
    · rw [List.getElem?_eq_none (by omega), List.getElem?_eq_none (by omega)]

/-- C2 at the queue showing 0 1 2 and the interior id 1. -/
theorem take_bribe_moves_to_front_witness :
    Inv queue_three ∧ sq_display queue_three = some [0, 1, 2] ∧ (1 : Int) ∈ [0, 1, 2] ∧
      ∃ q1, sq_take_bribe queue_three 1 = Except.ok (1, q1) ∧
        sq_display q1 = some [1, 0, 2] ∧
        sq_length q1 = sq_length queue_three ∧ q1.total = queue_three.total ∧
        q1.buzzer = queue_three.buzzer ∧
        q1.bucket = queue_three.bucket ∧ free_stack q1 = free_stack queue_three ∧
        ∀ a, prevOf queue_three.heap a = none → q1.heap[a]? = queue_three.heap[a]? :=
  ⟨inv_queue_three, by decide, by decide,
    take_bribe_moves_to_front queue_three [0, 1, 2] 1 inv_queue_three (by decide) (by decide)⟩

/-- C3, as stated, fails: the queue that 1342177280 calls of
`sq_give_buzzer` on a fresh queue have built satisfies the invariants, its
free stack is empty and its table is full with capacity 1342177280; there
`sq_give_buzzer` returns no id, because `q->total * 2` in `grow_buzzers`
leaves the range of `int`. -/
theorem give_buzzer_overflows_when_full :
    ∃ q, Reachable q ∧ Inv q ∧ q.bucket = none ∧ sq_length q = 1342177280 ∧
      q.total = 1342177280 ∧ sq_give_buzzer q = Except.error Fault.overflow := by
  obtain ⟨q, h1, h2, -, h4⟩ :=
    fresh_run (m := 0) rep_create (by intro i hi; omega) create_cap 1342177280 (by omega)
  obtain ⟨g1, g2, g3⟩ := fresh_full h2 h4 (by omega)
  exact ⟨q, ⟨_, _, h1⟩, ⟨_, _, h2⟩, h2.bucket_eq, g1, g2, g3⟩

/-- C3, amended: on a queue that satisfies the invariants and on which the
call does not have to double a capacity whose double leaves the range of
`int` (the free stack is not empty, or `n < total`, or `2 * total` is at most
2147483647), `sq_give_buzzer` returns a non-negative id that `sq_display` did
not show, and afterwards `sq_display` shows the previous sequence with that
id appended at the back and `sq_length` is one more. -/
theorem give_buzzer_appends (q : SQ) (hinv : Inv q)
    (hfit : q.bucket ≠ none ∨ q.n < q.total ∨ q.total * 2 ≤ 2147483647) :
    ∃ d t q1, sq_display q = some d ∧ sq_give_buzzer q = Except.ok (t, q1) ∧
      0 ≤ t ∧ t ∉ d ∧ sq_display q1 = some (d ++ [t]) ∧
      sq_length q1 = sq_length q + 1 := by
  obtain ⟨L, F, r⟩ := hinv
  obtain ⟨t, q1, a, h1, h2, h3, h4, h5, -, h7⟩ := r.give hfit
  exact ⟨_, t, q1, r.display, h1, h3, h4, by rw [h2.display, h5], h7⟩

/-- C3 at the queue showing 1 2 with 0 on its free stack. -/
theorem give_buzzer_appends_witness :
    Inv queue_seated ∧
      (queue_seated.bucket ≠ none ∨ queue_seated.n < queue_seated.total ∨
        queue_seated.total * 2 ≤ 2147483647) ∧
      ∃ d t q1, sq_display queue_seated = some d ∧
        sq_give_buzzer queue_seated = Except.ok (t, q1) ∧
        0 ≤ t ∧ t ∉ d ∧ sq_display q1 = some (d ++ [t]) ∧
        sq_length q1 = sq_length queue_seated + 1 :=
  ⟨inv_queue_seated, by decide, give_buzzer_appends queue_seated inv_queue_seated (by decide)⟩

/-- C4: on a queue that satisfies the invariants and whose ring is not
empty, `sq_seat` returns the id `sq_display` shows first; afterwards
`sq_display` shows the rest in the same order, `sq_length` is one less, and
the removed slot is on top of the free stack with `prev` cleared. -/
theorem seat_removes_front (q : SQ) (hinv : Inv q) (hne : q.start ≠ none) :
    ∃ t d f q1 a, sq_display q = some (t :: d) ∧ free_stack q = some f ∧
      sq_seat q = Except.ok (t, q1) ∧ sq_display q1 = some d ∧
      sq_length q1 = sq_length q - 1 ∧
      q.start = some a ∧ q1.bucket = some a ∧ idOf q1.heap a = t ∧
      prevOf q1.heap a = none ∧ free_stack q1 = some (t :: f) := by
  obtain ⟨L, F, r⟩ := hinv
  cases L with
  | nil => exact absurd r.start_eq hne
  | cons a M =>
    obtain ⟨q1, h1, h2, hids, hf, h4⟩ := r.seat_display
    refine ⟨idOf q.heap a, M.map (idOf q.heap), F.map (idOf q.heap), q1, a, ?_, r.free_stack,
      h1, ?_, h4, r.start_eq, h2.bucket_eq, hf.2.2.2 a, h2.free_prev a (by simp), ?_⟩
    · rw [r.display]; rfl
    · rw [h2.display, hids]
    · rw [h2.free_stack, hids]; rfl

/-- C4 at the queue showing 0 1 2. -/
theorem seat_removes_front_witness :
    Inv queue_three ∧ queue_three.start ≠ none ∧
      ∃ t d f q1 a, sq_display queue_three = some (t :: d) ∧
        free_stack queue_three = some f ∧
        sq_seat queue_three = Except.ok (t, q1) ∧ sq_display q1 = some d ∧
        sq_length q1 = sq_length queue_three - 1 ∧
        queue_three.start = some a ∧ q1.bucket = some a ∧ idOf q1.heap a = t ∧
        prevOf q1.heap a = none ∧ free_stack q1 = some (t :: f) :=
  ⟨inv_queue_three, by decide,
    seat_removes_front queue_three inv_queue_three (by decide)⟩

/-- C5: the property that `sq_give_buzzer` never returns an id that
`sq_display` shows fails in a reachable queue.  After three calls of
`sq_give_buzzer`, `sq_take_bribe 1` and `sq_kick_out 0` the queue shows 1 0,
and the next call of `sq_give_buzzer` returns 0. -/
theorem give_buzzer_returns_shown_id :
    ∃ q q1, Reachable q ∧ sq_display q = some [1, 0] ∧
      sq_give_buzzer q = Except.ok (0, q1) ∧ (0 : Int) ∈ [1, 0] :=
  ⟨_, _, ⟨[Op.give, Op.give, Op.give, Op.bribe 1, Op.kick 0], [0, 1, 2, 1, 1], rfl⟩,
    by decide, rfl, by decide⟩

/-- C6: on a queue that satisfies the invariants, `sq_kick_out` and
`sq_take_bribe` called with a non-negative id that `sq_display` does not
show return 0 and leave the whole queue as it was; this is the case of the
id just removed by a successful `sq_kick_out` or by `sq_seat`. -/
theorem absent_token_rejected (q : SQ) (hinv : Inv q) :
    (∀ d t, sq_display q = some d → 0 ≤ t → t ∉ d →
      sq_kick_out q t = Except.ok (0, q) ∧ sq_take_bribe q t = Except.ok (0, q)) ∧
    (∀ t q1, sq_kick_out q t = Except.ok (1, q1) →
      sq_kick_out q1 t = Except.ok (0, q1) ∧ sq_take_bribe q1 t = Except.ok (0, q1)) ∧
    (∀ t q1, q.start ≠ none → sq_seat q = Except.ok (t, q1) →
      sq_kick_out q1 t = Except.ok (0, q1) ∧ sq_take_bribe q1 t = Except.ok (0, q1)) := by
  obtain ⟨L, F, r⟩ := hinv
  refine ⟨?_, ?_, ?_⟩
  · intro d t hd h0 ht
    exact r.rejects h0 (r.of_display hd ▸ ht)
  · intro t q1 h
    obtain ⟨a, ha, hat, h2, hf, -⟩ := r.kick_out_inv h
    have h0 : 0 ≤ t := hat ▸ (r.ids a (r.lt_of_mem_ring ha)).1
    exact h2.rejects h0 (hat ▸ r.erase_not_shown hf.2.2.2 ha)
  · intro t q1 hne h
    obtain ⟨a, M, hL, hat, h2, hf, -⟩ := r.seat_inv hne h
    subst hL
    have h0 : 0 ≤ t := hat ▸ (r.ids a (r.lt_of_mem_ring (by simp))).1
    have := r.erase_not_shown hf.2.2.2 (List.mem_cons_self a M)
    rw [List.erase_cons_head] at this
    exact h2.rejects h0 (hat ▸ this)

/-- C6 at the queue showing 1 2, for the id 0 on its free stack. -/
theorem absent_token_rejected_witness :
    Inv queue_seated ∧ sq_display queue_seated = some [1, 2] ∧ (0 : Int) ∉ [1, 2] ∧
      sq_kick_out queue_seated 0 = Except.ok (0, queue_seated) ∧
      sq_take_bribe queue_seated 0 = Except.ok (0, queue_seated) :=
  ⟨inv_queue_seated, by decide, by decide,
    (absent_token_rejected queue_seated inv_queue_seated).1 [1, 2] 0 (by decide) (by decide)
      (by decide)⟩

/-- C7: a negative id is not rejected.  On a freshly created queue
`sq_kick_out` and `sq_take_bribe` called with -1 pass the test
`buzzer >= q->total` and then read `q->buzzer[-1]`, outside the table. -/
theorem negative_token_reads_outside_table :
    sq_kick_out sq_create (-1) = Except.error Fault.outOfBounds ∧
      sq_take_bribe sq_create (-1) = Except.error Fault.outOfBounds :=
  ⟨rfl, rfl⟩

/-- C8: on a queue that satisfies the invariants and whose free stack is not
empty, `sq_give_buzzer` returns the id of the slot on top of the free
stack, allocates no slot and leaves the capacity and the table unchanged; so
it returns the id just removed by `sq_seat` or by a successful
`sq_kick_out`. -/
theorem give_reuses_top (q : SQ) (hinv : Inv q) :
    (∀ a, q.bucket = some a →
      ∃ f q1, free_stack q = some (idOf q.heap a :: f) ∧
        sq_give_buzzer q = Except.ok (idOf q.heap a, q1) ∧ free_stack q1 = some f ∧
        q1.heap.length = q.heap.length ∧ q1.total = q.total ∧ q1.buzzer = q.buzzer) ∧
    (∀ t q1, q.start ≠ none → sq_seat q = Except.ok (t, q1) →
      ∃ q2, sq_give_buzzer q1 = Except.ok (t, q2)) ∧
    (∀ t q1, sq_kick_out q t = Except.ok (1, q1) →
      ∃ q2, sq_give_buzzer q1 = Except.ok (t, q2)) := by
  obtain ⟨L, F, r⟩ := hinv
  refine ⟨?_, ?_, ?_⟩
  · intro a ha
    cases F with
    | nil =>
      have := r.bucket_eq
      rw [ha] at this
      simp at this
    | cons b F =>
      have hb := r.bucket_eq
      rw [ha] at hb
      have hab : a = b := by simpa using hb
      subst hab
      obtain ⟨q1, h1, h2, ⟨f1, f2, f3, f4⟩, -⟩ := r.give_reuse
      refine ⟨F.map (idOf q.heap), q1, ?_, h1, ?_, f3, f2, f1⟩
      · rw [r.free_stack]; rfl
      · rw [h2.free_stack]
        exact congrArg some (List.map_congr_left (fun b _ => f4 b))
  · intro t q1 hne h
    obtain ⟨a, M, -, hat, h2, hf, -⟩ := r.seat_inv hne h
    obtain ⟨q2, h3, -⟩ := h2.give_reuse
    exact ⟨q2, by rw [h3, hf.2.2.2, hat]⟩
  · intro t q1 h
    obtain ⟨a, -, hat, h2, hf, -⟩ := r.kick_out_inv h
    obtain ⟨q2, h3, -⟩ := h2.give_reuse
    exact ⟨q2, by rw [h3, hf.2.2.2, hat]⟩

/-- C8 at the queue showing 1 2 with 0 on its free stack. -/
theorem give_reuses_top_witness :
    Inv queue_seated ∧ queue_seated.bucket = some 0 ∧
      ∃ f q1, free_stack queue_seated = some (idOf queue_seated.heap 0 :: f) ∧
        sq_give_buzzer queue_seated = Except.ok (idOf queue_seated.heap 0, q1) ∧
        free_stack q1 = some f ∧
        q1.heap.length = queue_seated.heap.length ∧ q1.total = queue_seated.total ∧
        q1.buzzer = queue_seated.buzzer :=
  ⟨inv_queue_seated, rfl, (give_reuses_top queue_seated inv_queue_seated).1 0 rfl⟩

/-- C9, as stated, fails for `k` = 1342177281: the last of 1342177281
consecutive calls of `sq_give_buzzer` on a freshly created queue finds the
table full with capacity 1342177280 and returns no id, because
`q->total * 2` in `grow_buzzers` leaves the range of `int`. -/
theorem fresh_ids_overflow :
    run sq_create (List.replicate 1342177281 Op.give) = Except.error Fault.overflow :=
  fresh_run_overflow (m := 0) rep_create (by intro i hi; omega) create_cap 1342177280
    (by omega)

/-- C9, amended: for every `k` up to 1342177280, `k` consecutive calls of
`sq_give_buzzer` on a freshly created queue return 0, 1, ..., k-1 in that
order; afterwards `sq_length` is `k`, `sq_display` shows 0, 1, ..., k-1, and
every slot issued is still the slot the table registers under its id,
however often the table grew. -/
theorem fresh_ids_in_order (k : Nat) (hk : k ≤ 1342177280) :
    ∃ q, run sq_create (List.replicate k Op.give)
        = Except.ok ((List.range k).map Int.ofNat, q) ∧
      sq_length q = k ∧ sq_display q = some ((List.range k).map Int.ofNat) ∧
      q.heap.length = k ∧
      ∀ i, i < k → q.buzzer[i]? = some (some i) ∧ idOf q.heap i = i := by
  obtain ⟨q, h1, h2, h3, -⟩ :=
    fresh_run (m := 0) rep_create (by intro i hi; omega) create_cap k (by omega)
  rw [Nat.zero_add] at h2 h3
  have hlen : q.heap.length = k := by
    have := h2.slots_length; simpa using this.symm
  refine ⟨q, ?_, ?_, ?_, hlen, ?_⟩
  · rw [h1, List.range_eq_range']
  · show q.n = k
    rw [h2.len]; simp
  · rw [h2.display]
    exact congrArg some (List.map_congr_left (fun i hi => h3 i (List.mem_range.1 hi)))
  · intro i hi
    have := (h2.ids i (hlen.symm ▸ hi)).2.2
    rw [h3 i hi] at this
    exact ⟨getD_eq_some.1 (by simpa using this), h3 i hi⟩

/-- C9 at `k` = 25, past two doublings of the table. -/
theorem fresh_ids_in_order_witness :
    (25 : Nat) ≤ 1342177280 ∧
      ∃ q, run sq_create (List.replicate 25 Op.give)
          = Except.ok ((List.range 25).map Int.ofNat, q) ∧
        sq_length q = 25 ∧ sq_display q = some ((List.range 25).map Int.ofNat) ∧
        q.heap.length = 25 ∧
        ∀ i, i < 25 → q.buzzer[i]? = some (some i) ∧ idOf q.heap i = i :=
  ⟨by decide, fresh_ids_in_order 25 (by decide)⟩

/-- C10: on a queue that satisfies the invariants and shows `d`, whenever `k`
calls of `sq_give_buzzer` have returned the ids `ts`, the next
`d.length + k` calls of `sq_seat` return the ids of `d` and then those of
`ts`, in that order, and the call of `sq_seat` after them returns -1.  The
`k` calls do return as long as `n + k` is at most 1073741824, so that no
doubling of the capacity leaves the range of `int`. -/
theorem fifo_order (q : SQ) (k : Nat) (hinv : Inv q) :
    ∃ d, sq_display q = some d ∧
      (∀ ts q1, run q (List.replicate k Op.give) = Except.ok (ts, q1) →
        ts.length = k ∧
        ∃ q2, run q1 (List.replicate (d.length + k) Op.seat) = Except.ok (d ++ ts, q2) ∧
          sq_seat q2 = Except.ok (-1, q2)) ∧
      (q.n + k ≤ 1073741824 →
        ∃ ts q1, run q (List.replicate k Op.give) = Except.ok (ts, q1)) := by
  obtain ⟨L, F, r⟩ := hinv
  refine ⟨_, r.display, ?_, fun hk => r.give_run k hk⟩
  intro ts q1 h1
  obtain ⟨L1, F1, h2, h3, h4⟩ := r.give_run_of_ok k h1
  obtain ⟨q2, g1, g2⟩ := h2.seat_run
  refine ⟨h4, q2, ?_, g2.seat_empty⟩
  have hlen : L1.length = (L.map (idOf q.heap)).length + k := by
    have := congrArg List.length h3
    simpa [h4] using this
  rw [← hlen, ← h3]
  exact g1

/-- C10 at the queue showing 1 2, with two calls of `sq_give_buzzer`. -/
theorem fifo_order_witness :
    Inv queue_seated ∧
      ∃ d ts q1 q2, sq_display queue_seated = some d ∧
        run queue_seated (List.replicate 2 Op.give) = Except.ok (ts, q1) ∧ ts.length = 2 ∧
        run q1 (List.replicate (d.length + 2) Op.seat) = Except.ok (d ++ ts, q2) ∧
        sq_seat q2 = Except.ok (-1, q2) := by
  refine ⟨inv_queue_seated, ?_⟩
  obtain ⟨d, hd, hseat, hgive⟩ := fifo_order queue_seated 2 inv_queue_seated
  obtain ⟨ts, q1, h1⟩ := hgive (by decide)
  obtain ⟨h2, q2, h3, h4⟩ := hseat ts q1 h1
  exact ⟨d, ts, q1, q2, hd, h1, h2, h3, h4⟩

/-! ## The queues reached through the interior branch of `sq_take_bribe` -/

theorem queue_bribed_run :
    run sq_create [Op.give, Op.give, Op.give, Op.bribe 1]
      = Except.ok ([0, 1, 2, 1], queue_bribed) := rfl

theorem queue_looping_run :
    run sq_create [Op.give, Op.give, Op.give, Op.bribe 1, Op.bribe 0]
      = Except.ok ([0, 1, 2, 1, 1], queue_looping) := rfl

theorem queue_miscounted_run :
    run sq_create [Op.give, Op.give, Op.give, Op.bribe 1, Op.kick 0, Op.give]
      = Except.ok ([0, 1, 2, 1, 1, 0], queue_miscounted) := rfl

theorem Seg_unique {f : Nat → Ptr} {L M : List Nat} {p : Ptr}
    (h1 : Seg f p L none) (h2 : Seg f p M none) : L = M := by
  induction L generalizing p M with
  | nil =>
    cases M with
    | nil => rfl
    | cons y M =>
      have e1 : p = none := h1
      have e2 : p = some y := h2.1
      rw [e1] at e2; cases e2
  | cons x L ih =>
    cases M with
    | nil =>
      have e1 : p = some x := h1.1
      have e2 : p = none := h2
      rw [e1] at e2; cases e2
    | cons y M =>
      have e1 : p = some x := h1.1
      have e2 : p = some y := h2.1
      have exy : x = y := by rw [e1] at e2; exact Option.some.inj e2
      subst exy
      rw [ih h1.2 h2.2]

theorem ringInv_queue_three : RingInv queue_three :=
  ⟨[0, 1, 2], by decide, by decide, by decide, by decide⟩

theorem not_ringInv_queue_bribed : ¬ RingInv queue_bribed := by
  rintro ⟨L, -, -, hn, hp⟩
  have hL : L = [1, 0, 2] :=
    Seg_unique hn (show Seg (nextOf queue_bribed.heap) queue_bribed.start [1, 0, 2] none by decide)
  subst hL
  revert hp
  decide

theorem walk_queue_looping (fuel : Nat) :
    walk queue_looping.heap fuel (some 0) = none ∧
      walk queue_looping.heap fuel (some 1) = none := by
  induction fuel with
  | zero => exact ⟨rfl, rfl⟩
  | succ k ih =>
    obtain ⟨h0, h1⟩ := ih
    constructor
    · show (match walk queue_looping.heap k (some 1) with
        | some rest => some ((0 : Int) :: rest)
        | none => none) = none
      rw [h1]
    · show (match walk queue_looping.heap k (some 0) with
        | some rest => some ((1 : Int) :: rest)
        | none => none) = none
      rw [h0]

/-! ## No call reaches `abort` but through a null slot -/

theorem bind_ne_abort {α β : Type} (x : Except Fault α) (f : α → Except Fault β)
    (hx : x ≠ Except.error Fault.abort) (hf : ∀ v, f v ≠ Except.error Fault.abort) :
    (x >>= f) ≠ Except.error Fault.abort := by
  cases x with
  | error e =>
    intro h
    have h2 : (Except.error e : Except Fault β) = Except.error Fault.abort := h
    injection h2 with h3
    exact hx (h3 ▸ rfl)
  | ok v => exact hf v

theorem pure_ne_abort {α : Type} (v : α) :
    (pure v : Except Fault α) ≠ Except.error Fault.abort := by
  intro h; cases h

theorem deref_ne_abort (h : List NODE) (p : Ptr) :
    deref h p ≠ Except.error Fault.abort := by
  unfold deref
  cases p with
  | none => intro e; cases e
  | some a =>
    by_cases ha : a < h.length
    · simp [ha]
    · simp only [if_neg ha]; intro e; cases e

theorem rdId_ne_abort (h : List NODE) (p : Ptr) : rdId h p ≠ Except.error Fault.abort := by
  have hd := deref_ne_abort h p
  unfold rdId
  cases hx : deref h p with
  | error e => intro h2; rw [hx] at hd; injection h2 with h3; exact hd (h3 ▸ rfl)
  | ok a => intro h2; cases h2

theorem rdNext_ne_abort (h : List NODE) (p : Ptr) :
    rdNext h p ≠ Except.error Fault.abort := by
  have hd := deref_ne_abort h p
  unfold rdNext
  cases hx : deref h p with
  | error e => intro h2; rw [hx] at hd; injection h2 with h3; exact hd (h3 ▸ rfl)
  | ok a => intro h2; cases h2

theorem rdPrev_ne_abort (h : List NODE) (p : Ptr) :
    rdPrev h p ≠ Except.error Fault.abort := by
  have hd := deref_ne_abort h p
  unfold rdPrev
  cases hx : deref h p with
  | error e => intro h2; rw [hx] at hd; injection h2 with h3; exact hd (h3 ▸ rfl)
  | ok a => intro h2; cases h2

theorem wrNext_ne_abort (h : List NODE) (p v : Ptr) :
    wrNext h p v ≠ Except.error Fault.abort := by
  have hd := deref_ne_abort h p
  unfold wrNext
  cases hx : deref h p with
  | error e => intro h2; rw [hx] at hd; injection h2 with h3; exact hd (h3 ▸ rfl)
  | ok a => intro h2; cases h2

theorem wrPrev_ne_abort (h : List NODE) (p v : Ptr) :
    wrPrev h p v ≠ Except.error Fault.abort := by
  have hd := deref_ne_abort h p
  unfold wrPrev
  cases hx : deref h p with
  | error e => intro h2; rw [hx] at hd; injection h2 with h3; exact hd (h3 ▸ rfl)
  | ok a => intro h2; cases h2

theorem rdTab_ne_abort (tab : List Ptr) (i : Int) :
    rdTab tab i ≠ Except.error Fault.abort := by
  unfold rdTab
  split
  · intro e; cases e
  · split <;> (intro e; cases e)

theorem wrTab_ne_abort (tab : List Ptr) (i : Int) (v : Ptr) :
    wrTab tab i v ≠ Except.error Fault.abort := by
  unfold wrTab
  split
  · intro e; cases e
  · split <;> (intro e; cases e)

theorem mapM_ne_abort {α β : Type} (f : α → Except Fault β) (l : List α)
    (hf : ∀ x, f x ≠ Except.error Fault.abort) :
    l.mapM f ≠ Except.error Fault.abort := by
  induction l with
  | nil => intro e; cases e
  | cons x l ih =>
    rw [List.mapM_cons]
    refine bind_ne_abort _ _ (hf x) (fun y => ?_)
    exact bind_ne_abort _ _ ih (fun ys => pure_ne_abort _)

theorem grow_buzzers_ne_abort (q : SQ) : grow_buzzers q ≠ Except.error Fault.abort := by
  unfold grow_buzzers
  split
  · intro e; cases e
  dsimp only
  refine bind_ne_abort _ _ (mapM_ne_abort _ _ ?_) (fun tmp => pure_ne_abort _)
  intro i
  split
  · exact rdTab_ne_abort _ _
  · exact pure_ne_abort _

theorem enqueue_buzzer_ne_abort (q : SQ) (a : Nat) :
    enqueue_buzzer q (some a) ≠ Except.error Fault.abort := by
  unfold enqueue_buzzer
  rw [if_neg (by simp)]
  refine bind_ne_abort _ _ (rdId_ne_abort _ _) (fun ret => ?_)
  refine bind_ne_abort _ _ (wrNext_ne_abort _ _ _) (fun h1 => ?_)
  split
  · refine bind_ne_abort _ _ (rdPrev_ne_abort _ _) (fun sp => ?_)
    refine bind_ne_abort _ _ (wrPrev_ne_abort _ _ _) (fun h2 => ?_)
    refine bind_ne_abort _ _ (rdPrev_ne_abort _ _) (fun sp2 => ?_)
    refine bind_ne_abort _ _ (wrNext_ne_abort _ _ _) (fun h3 => ?_)
    exact bind_ne_abort _ _ (wrPrev_ne_abort _ _ _) (fun h4 => pure_ne_abort _)
  · exact bind_ne_abort _ _ (wrPrev_ne_abort _ _ _) (fun h2 => pure_ne_abort _)

theorem enqueue_buzzer_null (q : SQ) :
    enqueue_buzzer q none = Except.error Fault.abort := by
  simp [enqueue_buzzer]

/-- C19: `sq_give_buzzer` never reaches `abort`.  In `enqueue_buzzer` the
abort is the branch of a null slot and of no other; the slot that
`sq_give_buzzer` passes is the top of the free stack when that is not null
and the freshly allocated slot otherwise, so on no queue does the call end
in the abort. -/
theorem give_buzzer_never_aborts (q : SQ) :
    sq_give_buzzer q ≠ Except.error Fault.abort ∧
      (∀ q0 p, enqueue_buzzer q0 p = Except.error Fault.abort ↔ p = none) := by
  constructor
  · unfold sq_give_buzzer
    split
    · rename_i hb
      obtain ⟨a, ha⟩ : ∃ a, q.bucket = some a := Option.ne_none_iff_exists'.1 hb
      refine bind_ne_abort _ _ (rdNext_ne_abort _ _) (fun bn => ?_)
      rw [ha]
      split
      · exact enqueue_buzzer_ne_abort _ _
      · exact enqueue_buzzer_ne_abort _ _
    · split
      · refine bind_ne_abort _ _ (grow_buzzers_ne_abort _) (fun q1 => ?_)
        refine bind_ne_abort _ _ (wrTab_ne_abort _ _ _) (fun tab => ?_)
        exact enqueue_buzzer_ne_abort _ _
      · refine bind_ne_abort _ _ (pure_ne_abort _) (fun q1 => ?_)
        refine bind_ne_abort _ _ (wrTab_ne_abort _ _ _) (fun tab => ?_)
        exact enqueue_buzzer_ne_abort _ _
  · intro q0 p
    constructor
    · intro h
      cases p with
      | none => rfl
      | some a => exact absurd h (enqueue_buzzer_ne_abort q0 a)
    · intro h
      rw [h]
      exact enqueue_buzzer_null q0

/-! ## What the invariant gives for the counts and the ids -/

/-- On a queue that satisfies the invariant `sq_display` ends, `sq_length`
is the number of ids it shows, and the capacity covers it. -/
theorem Rep.sound_counts {q : SQ} {L F : List Nat} (r : Rep q L F) :
    sq_display q = some (L.map (idOf q.heap)) ∧
      sq_length q = (L.map (idOf q.heap)).length ∧ 0 ≤ sq_length q ∧
      sq_length q ≤ q.total := by
  have h1 := r.len
  have h2 := r.slots_length
  have h3 := r.cap
  refine ⟨r.display, ?_, ?_, ?_⟩
  · show q.n = _; rw [h1]; simp
  · show 0 ≤ q.n; omega
  · show q.n ≤ q.total; omega

/-- On a queue that satisfies the invariant and whose free stack is empty,
the ids shown are exactly 0, ..., n-1 and `sq_give_buzzer`, when it does not
have to double a capacity whose double leaves the range of `int`, returns
n. -/
theorem Rep.ids_exact {q : SQ} {L : List Nat} (r : Rep q L []) :
    (∀ i : Int, i ∈ L.map (idOf q.heap) ↔ 0 ≤ i ∧ i < q.n) ∧
      (q.n < q.total ∨ q.total * 2 ≤ 2147483647 →
        ∃ q1, sq_give_buzzer q = Except.ok (q.n, q1)) := by
  have hN : L.length = q.heap.length := by simpa using r.slots_length
  have hn : q.n = q.heap.length := by rw [r.len, hN]
  constructor
  · have hnd : (L.map (fun a => (idOf q.heap a).toNat)).Nodup := by
      apply List.Nodup.map_on _ (List.nodup_append.1 r.nodup).1
      intro a ha b hb hab
      have h1 := (r.ids a (r.lt_of_mem_ring ha)).1
      have h2 := (r.ids b (r.lt_of_mem_ring hb)).1
      exact r.id_inj (r.lt_of_mem_ring ha) (r.lt_of_mem_ring hb) (by omega)
    have hsub : L.map (fun a => (idOf q.heap a).toNat) ⊆ List.range q.heap.length := by
      intro i hi
      obtain ⟨a, ha, hai⟩ := List.mem_map.1 hi
      have h1 := r.ids a (r.lt_of_mem_ring ha)
      rw [List.mem_range, ← hai]
      omega
    have hperm : (L.map (fun a => (idOf q.heap a).toNat)).Perm (List.range q.heap.length) :=
      (List.subperm_of_subset hnd hsub).perm_of_length_le (by simp [hN])
    intro i
    constructor
    · intro hi
      obtain ⟨a, ha, hai⟩ := List.mem_map.1 hi
      have h1 := r.ids a (r.lt_of_mem_ring ha)
      rw [← hai, hn]
      exact ⟨h1.1, h1.2.1⟩
    · rintro ⟨h0, h1⟩
      have hmem : i.toNat ∈ List.range q.heap.length := by
        rw [List.mem_range]; omega
      rw [← hperm.mem_iff] at hmem
      obtain ⟨a, ha, hai⟩ := List.mem_map.1 hmem
      have h2 := (r.ids a (r.lt_of_mem_ring ha)).1
      exact List.mem_map.2 ⟨a, ha, by omega⟩
  · intro hfit
    obtain ⟨q1, h1, -⟩ := r.give_fresh hfit
    exact ⟨q1, h1⟩

/-- C11: the property that `sq_length` is the number of ids `sq_display`
shows fails in a reachable queue.  After three calls of `sq_give_buzzer`,
`sq_take_bribe 1`, `sq_kick_out 0` and one more `sq_give_buzzer`, `sq_length`
is 3 and `sq_display` shows the two ids 1 0. -/
theorem length_differs_from_display :
    Reachable queue_miscounted ∧ sq_length queue_miscounted = 3 ∧
      sq_display queue_miscounted = some [1, 0] ∧ ([1, 0] : List Int).length = 2 :=
  ⟨⟨_, _, queue_miscounted_run⟩, rfl, by decide, rfl⟩

/-- On every queue whose ring is empty `sq_seat` returns -1 and leaves the
whole queue as it was, and `sq_display` shows nothing; this is the case of a
freshly created queue and, for a queue that satisfies the invariants, of the
queue left when every id shown has been seated, whose `sq_length` is 0. -/
theorem seat_on_empty_ring :
    (∀ q, q.start = none → sq_seat q = Except.ok (-1, q) ∧ sq_display q = some []) ∧
    sq_seat sq_create = Except.ok (-1, sq_create) ∧
    (∀ q d, Inv q → sq_display q = some d →
      ∃ q1, run q (List.replicate d.length Op.seat) = Except.ok (d, q1) ∧
        q1.start = none ∧ sq_length q1 = 0 ∧ sq_seat q1 = Except.ok (-1, q1)) := by
  refine ⟨?_, rfl, ?_⟩
  · intro q h
    constructor
    · simp [sq_seat, h, pure, Except.pure]
    · simp [sq_display, h, walk]
  · intro q d hinv hd
    obtain ⟨L, F, r⟩ := hinv
    obtain ⟨q1, h1, h2⟩ := r.seat_run
    have hd2 := r.of_display hd
    refine ⟨q1, ?_, h2.start_eq, ?_, h2.seat_empty⟩
    · rw [hd2, List.length_map]; exact h1
    · show q1.n = 0
      rw [h2.len]; rfl

/-- C12: the property that `sq_length` is 0 on a queue emptied by seating
fails in a reachable queue.  After three calls of `sq_give_buzzer`,
`sq_take_bribe 1`, `sq_kick_out 0`, one more `sq_give_buzzer` and two calls of
`sq_seat` the ring is empty and `sq_display` shows nothing; `sq_seat` returns
-1 and leaves the queue as it was, but `sq_length` is 1 and stays 1. -/
theorem seat_on_empty_ring_length_one :
    ∃ q, Reachable q ∧ q.start = none ∧ sq_display q = some [] ∧
      sq_seat q = Except.ok (-1, q) ∧ sq_length q = 1 :=
  ⟨_, ⟨[Op.give, Op.give, Op.give, Op.bribe 1, Op.kick 0, Op.give, Op.seat, Op.seat],
      [0, 1, 2, 1, 1, 0, 1, 0], rfl⟩, rfl, by decide, rfl, by decide⟩

/-- C13: the property that with an empty free stack the ids shown are
exactly 0, ..., n-1 fails in a reachable queue.  After three calls of
`sq_give_buzzer`, `sq_take_bribe 1`, `sq_kick_out 0` and one more
`sq_give_buzzer` the free stack is empty and `sq_length` is 3, but
`sq_display` shows 1 0: the id 2 is missing. -/
theorem empty_free_stack_ids_with_gap :
    Reachable queue_miscounted ∧ queue_miscounted.bucket = none ∧
      free_stack queue_miscounted = some [] ∧ sq_length queue_miscounted = 3 ∧
      sq_display queue_miscounted = some [1, 0] ∧ (2 : Int) ∉ [1, 0] :=
  ⟨⟨_, _, queue_miscounted_run⟩, rfl, by decide, rfl, by decide, by decide⟩

/-- C14: `sq_take_bribe` does not keep the ring invariant.  The queue after
three calls of `sq_give_buzzer` satisfies it; `sq_take_bribe 1` moves the
interior slot 1 to the front and leaves the `prev` of the old head 0, now
second, at the tail 2, so the invariant fails in the queue it returns. -/
theorem take_bribe_breaks_ring_invariant :
    Reachable queue_three ∧ RingInv queue_three ∧
      sq_take_bribe queue_three 1 = Except.ok (1, queue_bribed) ∧
      Reachable queue_bribed ∧ ¬ RingInv queue_bribed ∧
      prevOf queue_bribed.heap 0 = some 2 :=
  ⟨⟨_, _, queue_three_run⟩, ringInv_queue_three, rfl, ⟨_, _, queue_bribed_run⟩,
    not_ringInv_queue_bribed, rfl⟩

/-- C15: the property that the capacity is at least the active count fails
in a reachable queue.  After three calls of `sq_give_buzzer`,
`sq_take_bribe 1`, `sq_kick_out 0`, `sq_seat` and `sq_kick_out 0` the free
stack is the cycle 0, 1, 0, ...; eleven more calls of `sq_give_buzzer` each
pop it and add one to `n`, and none grows the table: `total` is 10 and
`sq_length` is 11. -/
theorem length_exceeds_capacity :
    ∃ q, Reachable q ∧ q.total = 10 ∧ sq_length q = 11 :=
  ⟨_, ⟨[Op.give, Op.give, Op.give, Op.bribe 1, Op.kick 0, Op.seat, Op.kick 0,
        Op.give, Op.give, Op.give, Op.give, Op.give, Op.give, Op.give, Op.give, Op.give,
        Op.give, Op.give],
      [0, 1, 2, 1, 1, 1, 1, 0, 1, 0, 1, 0, 1, 0, 1, 0, 1, 0], rfl⟩, by decide, by decide⟩

/-- C16: `sq_display` does not end in every reachable queue.  After three
calls of `sq_give_buzzer`, `sq_take_bribe 1` and `sq_take_bribe 0` the head
is slot 0, the `next` of slot 0 is slot 1 and the `next` of slot 1 is slot 0:
following `next` from the head never reaches null, whatever the number of
steps. -/
theorem display_loops :
    Reachable queue_looping ∧ queue_looping.start = some 0 ∧
      nextOf queue_looping.heap 0 = some 1 ∧ nextOf queue_looping.heap 1 = some 0 ∧
      (∀ fuel, walk queue_looping.heap fuel queue_looping.start = none) ∧
      sq_display queue_looping = none :=
  ⟨⟨_, _, queue_looping_run⟩, rfl, rfl, rfl, fun fuel => (walk_queue_looping fuel).1,
    by decide⟩

/-- A call of `sq_take_bribe` for the slot at the front changes nothing. -/
theorem Rep.take_bribe_front {q : SQ} {a : Nat} {M F : List Nat} (r : Rep q (a :: M) F) :
    sq_take_bribe q (idOf q.heap a) = Except.ok (1, q) := by
  have ha : a ∈ a :: M := List.mem_cons_self a M
  have hguard := r.present ha
  have htab := r.rdTab_id (r.lt_of_mem_ring ha)
  have hstart : q.start = some a := r.ring_next.1
  simp [sq_take_bribe, hguard, ok_bind, htab, hstart, pure, Except.pure]

/-- C17: on a queue that satisfies the invariants, `sq_take_bribe` called
twice with an id `t` that `sq_display` shows returns 1 both times and the
second call leaves the queue exactly as the first call left it; when `t` is
already at the front the first call leaves the queue, every field and every
slot, as it was. -/
theorem take_bribe_idempotent (q : SQ) (d : List Int) (t : Int) (hinv : Inv q)
    (hd : sq_display q = some d) (ht : t ∈ d) :
    ∃ q1, sq_take_bribe q t = Except.ok (1, q1) ∧
      sq_take_bribe q1 t = Except.ok (1, q1) ∧
      (d.head? = some t → q1 = q) := by
  obtain ⟨L, F, r⟩ := hinv
  obtain ⟨a, ha, hat⟩ := r.slot_of_shown hd ht
  obtain ⟨q1, h1, h2, ⟨f1, f2, f3, f4⟩, -, -, -, hprev⟩ := r.take_bribe ha
  have hlt := r.lt_of_mem_ring ha
  have hlt1 : a < q1.heap.length := by rw [f3]; exact hlt
  have htot : ¬ t ≥ q1.total := by
    have := r.id_lt_total hlt
    rw [f2, ← hat]; omega
  have htab : rdTab q1.buzzer t = Except.ok (some a) := by
    rw [f1, ← hat]; exact r.rdTab_id hlt
  have hstart : q1.start = some a := h2.1
  refine ⟨q1, hat ▸ h1, ?_, ?_⟩
  · simp [sq_take_bribe, not_in_queue, htot, htab, ok_bind, rdPrev_some, hlt1, hprev, hstart,
      pure, Except.pure]
  · intro hhead
    rw [r.of_display hd] at hhead
    cases L with
    | nil => simp at hhead
    | cons b M =>
      have hb : idOf q.heap b = t := by simpa using hhead
      have hab : b = a :=
        r.id_inj (r.lt_of_mem_ring (List.mem_cons_self b M)) hlt (hb.trans hat.symm)
      subst hab
      have h3 := r.take_bribe_front
      rw [h1] at h3
      exact (Prod.mk.inj (Except.ok.inj h3)).2

/-- C17 at the queue showing 0 1 2 and the interior id 1. -/
theorem take_bribe_idempotent_witness :
    Inv queue_three ∧ sq_display queue_three = some [0, 1, 2] ∧ (1 : Int) ∈ [0, 1, 2] ∧
      ∃ q1, sq_take_bribe queue_three 1 = Except.ok (1, q1) ∧
        sq_take_bribe q1 1 = Except.ok (1, q1) ∧
        (([0, 1, 2] : List Int).head? = some 1 → q1 = queue_three) :=
  ⟨inv_queue_three, by decide, by decide,
    take_bribe_idempotent queue_three [0, 1, 2] 1 inv_queue_three (by decide) (by decide)⟩

/-- C18: on a queue that satisfies the invariants, whenever
`sq_give_buzzer` has returned an id `t`, the following `sq_kick_out` of `t`
returns 1 and leaves `sq_display` and `sq_length` exactly as they were before
the call of `sq_give_buzzer`.  The call of `sq_give_buzzer` does return
unless it has to double a capacity whose double leaves the range of
`int`. -/
theorem give_then_kick_out_round_trip (q : SQ) (hinv : Inv q) :
    ∃ d, sq_display q = some d ∧
      (∀ t q1, sq_give_buzzer q = Except.ok (t, q1) →
        ∃ q2, sq_kick_out q1 t = Except.ok (1, q2) ∧ sq_display q2 = some d ∧
          sq_length q2 = sq_length q) ∧
      (q.bucket ≠ none ∨ q.n < q.total ∨ q.total * 2 ≤ 2147483647 →
        ∃ t q1, sq_give_buzzer q = Except.ok (t, q1)) := by
  obtain ⟨L, F, r⟩ := hinv
  refine ⟨_, r.display, ?_, ?_⟩
  · intro t q1 h1
    obtain ⟨a, h2, -, h4, h5, -, h7⟩ := r.give_of_ok h1
    rw [List.map_append, List.map_cons, List.map_nil] at h5
    obtain ⟨hL, ht⟩ := List.append_inj' h5 rfl
    have hat : idOf q1.heap a = t := by simpa using ht
    have ha : a ∈ L ++ [a] := by simp
    obtain ⟨q2, g1, g2, ⟨-, -, -, g4⟩, g5⟩ := h2.kick_out ha
    have haL : a ∉ L := by
      intro h
      apply h4
      rw [← hat, ← hL]
      exact List.mem_map.2 ⟨a, h, rfl⟩
    have herase : (L ++ [a]).erase a = L := by
      rw [List.erase_append_right _ haL]; simp
    rw [herase] at g2
    refine ⟨q2, hat ▸ g1, ?_, ?_⟩
    · rw [g2.display, ← hL]
      exact congrArg some (List.map_congr_left (fun b _ => g4 b))
    · show q2.n = q.n
      rw [g5, h7]; omega
  · intro hfit
    obtain ⟨t, q1, -, h1, -⟩ := r.give hfit
    exact ⟨t, q1, h1⟩

/-- C18 at the queue showing 1 2 with 0 on its free stack. -/
theorem give_then_kick_out_round_trip_witness :
    Inv queue_seated ∧
      ∃ d t q1 q2, sq_display queue_seated = some d ∧
        sq_give_buzzer queue_seated = Except.ok (t, q1) ∧
        sq_kick_out q1 t = Except.ok (1, q2) ∧ sq_display q2 = some d ∧
        sq_length q2 = sq_length queue_seated := by
  refine ⟨inv_queue_seated, ?_⟩
  obtain ⟨d, hd, hkick, hgive⟩ := give_then_kick_out_round_trip queue_seated inv_queue_seated
  obtain ⟨t, q1, h1⟩ := hgive (by decide)
  obtain ⟨q2, h2, h3, h4⟩ := hkick t q1 h1
  exact ⟨d, t, q1, q2, hd, h1, h2, h3, h4⟩

end ServiceQueue
